import Mathlib

/-!
# mruby/c `File` class over libc (`c_file.c`)

A shallow embedding of the methods of `c_file.c` over an explicit model of the
host's buffered streams.  Bytes are natural numbers, strings are byte lists,
the C `int` is an `Int` wrapped to 32 bits, and every method is a function
from the host state before the call to the host state after it together with
what the method handed back to the interpreter.

The host is a small reference libc: a directory of paths, numbered files, a
table of open streams with their positions and output buffers, `errno`, and a
script of short writes.  Written bytes stay in the buffer of their stream,
which has no size limit, and reach the file when the stream is flushed, which
`fclose` does; `fread` reads the file as it is.  A file is created only under
a name whose folder exists.  Access modes are not enforced on `fread` and `fwrite`, and
an operation on a handle that is not open does nothing.  The two `while` loops
take fuel; the results below say how much is enough.
-/

namespace CFile

/-! ## Finite tables (association lists) -/

/-- First value stored under key `k`. -/
def Tbl.get {α β : Type} [DecidableEq α] (k : α) : List (α × β) → Option β
  | [] => none
  | (a, b) :: t => if a = k then some b else Tbl.get k t

/-- Remove every entry stored under key `k`. -/
def Tbl.del {α β : Type} [DecidableEq α] (k : α) : List (α × β) → List (α × β)
  | [] => []
  | (a, b) :: t => if a = k then Tbl.del k t else (a, b) :: Tbl.del k t

/-- Store `v` under key `k`: in place of the first entry for `k`, or as a new
last entry. -/
def Tbl.set {α β : Type} [DecidableEq α] (k : α) (v : β) : List (α × β) → List (α × β)
  | [] => [(k, v)]
  | (a, b) :: t => if a = k then (k, v) :: t else (a, b) :: Tbl.set k v t

/-- A number larger than every member of `ks` (and never 0, the null handle). -/
def freshKey (ks : List Nat) : Nat := ks.foldr max 0 + 1

/-! ## The host: files, buffered streams, `errno` -/

/-- State of one open buffered stream (`FILE`). -/
structure FILE where
  /-- the file the stream is bound to -/
  ino : Nat
  /-- current position, a byte offset from the start of the file -/
  pos : Nat
  /-- opened in append mode: every write goes to the end of the file -/
  app : Bool
  /-- output buffer: bytes the stream has accepted and not yet written to the
  file; they end at the current position and reach the file at a flush -/
  wbuf : List Nat := []
deriving DecidableEq, Repr

/-- Host state. -/
structure World where
  /-- directory: C-string path to file number -/
  dir : List (List Nat × Nat)
  /-- the folders that exist, as C-string paths (the root and the current
  folder, written as the empty path, always exist) -/
  folders : List (List Nat)
  /-- contents of every file -/
  inodes : List (Nat × List Nat)
  /-- table of open streams, keyed by the `FILE *` handle -/
  streams : List (Nat × FILE)
  /-- last error number -/
  errno : Nat
  /-- short-write script: the k-th write of a non-empty buffer accepts at most
  the k-th number of bytes; once the script is used up every write is complete -/
  wcaps : List Nat
  /-- the requests made to `fopen` so far, oldest first: (path, mode) as passed -/
  opens : List (List Nat × List Nat)
deriving DecidableEq, Repr

def ENOENT : Nat := 2
def EISDIR : Nat := 21
def EINVAL : Nat := 22

/-- Text of an error number. -/
def strerror (e : Nat) : String :=
  if e = ENOENT then "No such file or directory"
  else if e = EISDIR then "Is a directory"
  else if e = EINVAL then "Invalid argument"
  else "Unknown error"

/-- The C string a byte pointer designates: the bytes before the first NUL. -/
def cstr (p : List Nat) : List Nat := p.takeWhile (fun b => decide (b ≠ 0))

/-- Bytes of file number `i`. -/
def content (w : World) (i : Nat) : List Nat := (Tbl.get i w.inodes).getD []

/-- A file number not in use. -/
def freshIno (w : World) : Nat :=
  freshKey (w.inodes.map Prod.fst ++ w.dir.map Prod.snd ++ w.streams.map (fun e => e.2.ino))

/-- A stream handle not in use. -/
def freshFp (w : World) : Nat := freshKey (w.streams.map Prod.fst)

/-- Register a new stream and hand out its handle. -/
def openStream (w : World) (f : FILE) : World × Option Nat :=
  ({ w with streams := (freshFp w, f) :: w.streams }, some (freshFp w))

/-- The folder a path lies in: the bytes before its last `/` (byte 47); the
empty path, which stands for the root or the current folder, when there is
none before it. -/
def parentOf (name : List Nat) : List Nat :=
  ((name.reverse.dropWhile (fun b => decide (b ≠ 47))).drop 1).reverse

/-- Whether the host can create a file under `name`: the name is not empty,
does not end in `/`, is not a folder, and the folder it lies in exists. -/
def canCreate (w : World) (name : List Nat) : Bool :=
  decide (name ≠ []) && decide (name.getLast? ≠ some 47) && !(w.folders.contains name)
    && (decide (parentOf name = []) || w.folders.contains (parentOf name))

/-- Create an empty file under `name` and open a stream on it; refused with
`EISDIR` for a folder and with `ENOENT` when the file cannot be created. -/
def createStream (w : World) (name : List Nat) (app : Bool) : World × Option Nat :=
  if canCreate w name then
    openStream
      { w with dir := Tbl.set name (freshIno w) w.dir,
               inodes := Tbl.set (freshIno w) [] w.inodes }
      { ino := freshIno w, pos := 0, app := app }
  else if w.folders.contains name then ({ w with errno := EISDIR }, none)
  else ({ w with errno := ENOENT }, none)

/-- Host `fopen(path, mode)`.  The mode is read by its first letter: `r` opens an
existing file at offset 0, `w` truncates an existing file or creates it, `a`
opens an existing file or creates it and appends; any other mode is refused
with `EINVAL`, a missing file under `r` with `ENOENT`, and a file that cannot
be created as `createStream` says.  The result is the handle, or `none` for
the null pointer. -/
def fopen (w : World) (path mode : List Nat) : World × Option Nat :=
  let w := { w with opens := w.opens ++ [(path, mode)] }
  let name := cstr path
  match cstr mode with
  | 114 :: _ =>
    match Tbl.get name w.dir with
    | some i => openStream w { ino := i, pos := 0, app := false }
    | none => ({ w with errno := ENOENT }, none)
  | 119 :: _ =>
    match Tbl.get name w.dir with
    | some i =>
      openStream { w with inodes := Tbl.set i [] w.inodes } { ino := i, pos := 0, app := false }
    | none => createStream w name false
  | 97 :: _ =>
    match Tbl.get name w.dir with
    | some i => openStream w { ino := i, pos := 0, app := true }
    | none => createStream w name true
  | _ => ({ w with errno := EINVAL }, none)

/-- File bytes after `out` is stored at offset `off` (a gap past the old end is
zero filled). -/
def writeAt (c : List Nat) (off : Nat) (out : List Nat) : List Nat :=
  (c ++ List.replicate (off - c.length) 0).take off ++ out ++ c.drop (off + out.length)

/-- Offset in the file at which the output buffer of stream `f` starts: the end
of the file for an append stream, else the position less what is buffered. -/
def flushOff (w : World) (f : FILE) : Nat :=
  if f.app then (content w f.ino).length else f.pos - f.wbuf.length

/-- Host `fflush(fp)`: the buffered output of the stream is written to its
file and the buffer is emptied. -/
def fflush (w : World) (fp : Nat) : World :=
  match Tbl.get fp w.streams with
  | none => w
  | some f =>
    if f.wbuf = [] then w
    else
      { w with
        inodes := Tbl.set f.ino (writeAt (content w f.ino) (flushOff w f) f.wbuf) w.inodes,
        streams := Tbl.set fp { f with wbuf := [] } w.streams }

/-- Host `fclose(fp)`: the stream is flushed and its handle leaves the table
of open streams. -/
def fclose (w : World) (fp : Nat) : World :=
  { fflush w fp with streams := Tbl.del fp (fflush w fp).streams }

/-- Host `remove(path)`: unlink the directory entry; 0 on success, -1 with
`ENOENT` when there is no such entry. -/
def remove (w : World) (path : List Nat) : World × Int :=
  match Tbl.get (cstr path) w.dir with
  | some _ => ({ w with dir := Tbl.del (cstr path) w.dir }, 0)
  | none => ({ w with errno := ENOENT }, -1)

/-- Move the position of stream `fp` (given its current state `f`) to `p`. -/
def setPos (w : World) (fp : Nat) (f : FILE) (p : Nat) : World :=
  { w with streams := Tbl.set fp { f with pos := p } w.streams }

/-- Host `fread(buf, 1, n, fp)`: the next at most `n` bytes from the current
position, which advances past them.  The returned list is what was stored in
`buf`; its length is the count `fread` returns.  The bytes are those of the
file: output still in the buffer of the stream is not seen (C asks for a flush
or a seek between writing and reading one stream).  A handle that is not open
yields nothing. -/
def fread (w : World) (fp : Nat) (n : Nat) : World × List Nat :=
  match Tbl.get fp w.streams with
  | none => (w, [])
  | some f =>
    let got := ((content w f.ino).drop f.pos).take n
    (setPos w fp f (f.pos + got.length), got)

/-- Offset at which stream `f` stores its next write: the end of the file and
of what is buffered for an append stream, else the position. -/
def writeOff (w : World) (f : FILE) : Nat :=
  if f.app then (content w f.ino).length + f.wbuf.length else f.pos

/-- Place the bytes `out` in stream `fp` at its write offset and advance the
position past them: they join the output buffer of the stream.  Nothing
happens for no bytes or a handle that is not open. -/
def put (w : World) (fp : Nat) (out : List Nat) : World :=
  match Tbl.get fp w.streams with
  | none => w
  | some f =>
    if out = [] then w
    else
      { w with
        streams :=
          Tbl.set fp { f with pos := writeOff w f + out.length, wbuf := f.wbuf ++ out }
            w.streams }

/-- Number of bytes the host accepts from a write of `n > 0` bytes, and the
short-write script left afterwards. -/
def accept (caps : List Nat) (n : Nat) : Nat × List Nat :=
  match caps with
  | [] => (n, [])
  | c :: cs => (min c n, cs)

/-- Host `fwrite(ptr, 1, len, fp)` with `bs` the `len` bytes at `ptr`: the host
accepts a leading part of `bs`, places it in the stream and returns how many
bytes that was. A write of no bytes, or to a handle that is not open, returns 0. -/
def fwrite (w : World) (fp : Nat) (bs : List Nat) : World × Nat :=
  match Tbl.get fp w.streams with
  | none => (w, 0)
  | some _ =>
    if bs = [] then (w, 0)
    else
      let a := accept w.wcaps bs.length
      (put { w with wcaps := a.2 } fp (bs.take a.1), a.1)

/-- Host `putc(c, fp)`: a write of the single byte `c`. -/
def putc (w : World) (c : Nat) (fp : Nat) : World := (fwrite w fp [c]).1

/-! ## Interpreter values -/

/-- Type tags of interpreter values. -/
inductive mrbc_vtype where
  | MRBC_TT_NIL
  | MRBC_TT_INTEGER
  | MRBC_TT_STRING
  | MRBC_TT_CLASS
  | MRBC_TT_OBJECT
  | MRBC_TT_OTHER (n : Nat)
deriving DecidableEq, Repr

/-- Interpreter values as far as `c_file.c` looks at them. -/
inductive mrbc_value where
  /-- the nil singleton -/
  | nil
  /-- an integer -/
  | integer (i : Int)
  /-- a string, as its bytes -/
  | string (s : List Nat)
  /-- a class object, such as `File` itself -/
  | cls
  /-- an instance whose data area holds the stream handle -/
  | object (fp : Nat)
  /-- a value of any other type (true, false, float, symbol, array, ...) -/
  | other (n : Nat)
deriving DecidableEq, Repr

open mrbc_vtype

/-- The tag `v.tt`. -/
def mrbc_value.tt : mrbc_value → mrbc_vtype
  | .nil => MRBC_TT_NIL
  | .integer _ => MRBC_TT_INTEGER
  | .string _ => MRBC_TT_STRING
  | .cls => MRBC_TT_CLASS
  | .object _ => MRBC_TT_OBJECT
  | .other n => MRBC_TT_OTHER n

/-- Bytes of a string value (`RSTRING_PTR`); nothing for other values. -/
def RSTRING_PTR : mrbc_value → List Nat
  | .string s => s
  | _ => []

/-- Byte length of a string value (`RSTRING_LEN`). -/
def RSTRING_LEN (v : mrbc_value) : Nat := (RSTRING_PTR v).length

/-- The stream handle stored in an instance (`MRBC_INSTANCE_DATA`); the null
handle 0 for a value that is no instance. -/
def MRBC_INSTANCE_DATA : mrbc_value → Nat
  | .object fp => fp
  | _ => 0

/-- What a method handed back to the interpreter. -/
inductive Outcome where
  /-- a return value was set -/
  | ret (v : mrbc_value)
  /-- `mrbc_raise(vm, MRBC_CLASS(ArgumentError), msg)`; `none` is the null message -/
  | raise (msg : Option String)
  /-- the method returned without setting a value -/
  | unset
deriving DecidableEq, Repr

/-- The register window of a call: `v[0]` is the receiver, `v[1..]` the
arguments, and nil beyond them. -/
def regs (recv : mrbc_value) (args : List mrbc_value) : Nat → mrbc_value
  | 0 => recv
  | i + 1 => args.getD i .nil

/-- A C `int`: the value wrapped into the signed 32-bit range. -/
def wrap32 (x : Int) : Int := (x + 2 ^ 31) % 2 ^ 32 - 2 ^ 31

/-- Bytes of a text literal. -/
def bytes (s : String) : List Nat := s.toList.map Char.toNat

/-! ## The methods of `c_file.c` -/

/-- The C literal `"r"`. -/
def mode_r : List Nat := [114]

/-- Method `File.new(path, mode = "r")`, also bound as `File.open`. -/
def c_file_new (w : World) (v : Nat → mrbc_value) (argc : Nat) : World × Outcome :=
  -- v[1] is filename
  if argc ≥ 1 then
    match v 1 with
    | .string filename =>
      -- v[2] is mode
      let mode : Option (List Nat) :=
        if argc ≥ 2 then
          match v 2 with
          | .string m => some m
          | _ => none
        else some mode_r
      match mode with
      | none => (w, .raise none)
      | some mode =>
        -- open the file.
        match fopen w filename mode with
        | (w1, none) => (w1, .raise (some (strerror w1.errno)))
        | (w1, some fp) => (w1, .ret (.object fp))
    | _ => (w, .raise none)
  else (w, .raise none)

/-- Method `file.close`. -/
def c_file_close (w : World) (v : Nat → mrbc_value) (_argc : Nat) : World × Outcome :=
  (fclose w (MRBC_INSTANCE_DATA (v 0)), .unset)

/-- The loop of `c_file_delete` with `n` iterations left, about to test
`i <= argc` (so `n = argc + 1 - i`). -/
def c_file_delete_loop (v : Nat → mrbc_value) : Nat → Nat → World → World × Outcome
  | 0, i, w => (w, .ret (.integer ((i : Int) - 1)))
  | n + 1, i, w =>
    if (v i).tt ≠ MRBC_TT_STRING then (w, .raise none)
    else
      match remove w (RSTRING_PTR (v i)) with
      | (w1, rc) =>
        if rc ≠ 0 then (w1, .raise (some (strerror w1.errno)))
        else c_file_delete_loop v n (i + 1) w1

/-- Method `File.delete(path, ...)`. -/
def c_file_delete (w : World) (v : Nat → mrbc_value) (argc : Nat) : World × Outcome :=
  c_file_delete_loop v argc 1 w

/-- The `while` loop of `c_file_read` for a staging buffer of `B` bytes
(`sizeof(buf)`, 32 in the source; `int len = sizeof(buf)` is `B` itself, a
size an `int` holds).  `fuel` bounds the number of times the loop test is
reached; `none` means the bound was hit.  The result is the host state and the
string built so far. -/
def c_file_read_loop (B : Nat) :
    Nat → World → Nat → Bool → Int → List Nat → Option (World × List Nat)
  | 0, _, _, _, _, _ => none
  | fuel + 1, w, fp, flag_all, length, ret =>
    if flag_all || decide (length > 0) then
      let len : Int := (B : Int)
      let len : Int := if !flag_all && decide (len > length) then length else len
      match fread w fp len.toNat with
      | (w1, got) =>
        if got.length = 0 then some (w1, ret)
        else
          c_file_read_loop B fuel w1 fp flag_all (wrap32 (length - (got.length : Int)))
            (ret ++ got)
    else some (w, ret)

/-- Method `File.read(path, length = nil)` and `file.read(length = nil)`, for a
staging buffer of `B` bytes.  `junk` stands for the indeterminate `int` the
local `length` holds while nothing has been assigned to it. -/
def c_file_read_sized (B : Nat) (fuel : Nat) (junk : Int) (w : World)
    (v : Nat → mrbc_value) (argc : Nat) : Option (World × Outcome) :=
  let start : Option (World × Nat × Nat × Bool) :=
    if (v 0).tt = MRBC_TT_CLASS then
      if (v 1).tt ≠ MRBC_TT_STRING then none
      else
        match fopen w (RSTRING_PTR (v 1)) mode_r with
        | (w1, fp) => some (w1, fp.getD 0, 2, decide (argc = 1))
    else some (w, MRBC_INSTANCE_DATA (v 0), 1, decide (argc = 0))
  match start with
  | none => some (w, .raise none)
  | some (w1, fp, pos_length, flag_all) =>
    -- check length parameter.
    let checked : Option (Bool × Int) :=
      if argc ≥ pos_length then
        match v pos_length with
        | .integer i => some (flag_all, wrap32 i)
        | .nil => some (true, wrap32 junk)
        | _ => none
      else some (flag_all, wrap32 junk)
    match checked with
    | none => some (w1, .raise none)
    | some (flag_all, length) =>
      -- read `length` bytes
      match c_file_read_loop B fuel w1 fp flag_all length [] with
      | none => none
      | some (w2, ret) =>
        let w3 := if pos_length = 2 then fclose w2 fp else w2
        some (w3, .ret (.string ret))

/-- Method `read` as the source has it: `char buf[32]`. -/
def c_file_read (fuel : Nat) (junk : Int) (w : World) (v : Nat → mrbc_value) (argc : Nat) :
    Option (World × Outcome) :=
  c_file_read_sized 32 fuel junk w v argc

/-- The loop of `c_file_write` with `n` iterations left, about to test
`i <= argc`; `length` is the running count. -/
def c_file_write_loop (v : Nat → mrbc_value) (fp : Nat) :
    Nat → Nat → World → Int → World × Outcome
  | 0, _, w, length => (w, .ret (.integer length))
  | n + 1, i, w, length =>
    if (v i).tt ≠ MRBC_TT_STRING then (w, .raise none)
    else if RSTRING_LEN (v i) = 0 then c_file_write_loop v fp n (i + 1) w length
    else
      match fwrite w fp (RSTRING_PTR (v i)) with
      | (w1, cnt) =>
        let len : Int := wrap32 (cnt : Int)
        if len = 0 then (w1, .ret (.integer length))
        else c_file_write_loop v fp n (i + 1) w1 (wrap32 (length + len))

/-- Method `file.write(*str)`. -/
def c_file_write (w : World) (v : Nat → mrbc_value) (argc : Nat) : World × Outcome :=
  c_file_write_loop v (MRBC_INSTANCE_DATA (v 0)) argc 1 w 0

/-- The `while` loop of `c_file_gets`; `fuel` bounds the number of `fread`
calls, `none` means the bound was hit. -/
def c_file_gets_loop : Nat → World → Nat → List Nat → Option (World × List Nat)
  | 0, _, _, _ => none
  | fuel + 1, w, fp, ret =>
    match fread w fp 1 with
    | (w1, buf) =>
      if buf.length ≠ 0 then
        if buf.head? = some 10 then some (w1, ret ++ buf)
        else c_file_gets_loop fuel w1 fp (ret ++ buf)
      else some (w1, ret)

/-- Method `file.gets`. -/
def c_file_gets (fuel : Nat) (w : World) (v : Nat → mrbc_value) (_argc : Nat) :
    Option (World × Outcome) :=
  match c_file_gets_loop fuel w (MRBC_INSTANCE_DATA (v 0)) [] with
  | none => none
  | some (w1, ret) =>
    if ret.length = 0 then some (w1, .ret .nil)
    else some (w1, .ret (.string ret))

/-- The loop of `c_file_puts` with `n` iterations left, about to test
`i <= argc`. -/
def c_file_puts_loop (v : Nat → mrbc_value) (fp : Nat) : Nat → Nat → World → World × Outcome
  | 0, _, w => (w, .ret .nil)
  | n + 1, i, w =>
    if (v i).tt ≠ MRBC_TT_STRING then (w, .raise none)
    else
      let w1 := (fwrite w fp (RSTRING_PTR (v i))).1
      let w2 :=
        if RSTRING_LEN (v i) = 0 ∨ (RSTRING_PTR (v i)).getLast? ≠ some 10 then putc w1 10 fp
        else w1
      c_file_puts_loop v fp n (i + 1) w2

/-- Method `file.puts(*arg)`. -/
def c_file_puts (w : World) (v : Nat → mrbc_value) (argc : Nat) : World × Outcome :=
  c_file_puts_loop v (MRBC_INSTANCE_DATA (v 0)) argc 1 w

/-! ## Sample host states -/

/-- A host with nothing in it. -/
def emptyWorld : World :=
  { dir := [], folders := [], inodes := [], streams := [], errno := 0, wcaps := [],
    opens := [] }

/-- A host holding one file `/t` and one stream, handle 1, over it. -/
def sampleWorld (c : List Nat) (p : Nat) : World :=
  { dir := [([47, 116], 1)], folders := [], inodes := [(1, c)],
    streams := [(1, { ino := 1, pos := p, app := false })],
    errno := 0, wcaps := [], opens := [] }

/-- A host holding one file `/t` with bytes `c` and no open stream. -/
def diskWorld (c : List Nat) : World :=
  { dir := [([47, 116], 1)], folders := [], inodes := [(1, c)], streams := [],
    errno := 0, wcaps := [], opens := [] }

/-- A host with the folder `/tmp` and nothing else. -/
def tmpWorld : World :=
  { dir := [], folders := [[47, 116, 109, 112]], inodes := [], streams := [], errno := 0,
    wcaps := [], opens := [] }

/-- A host with the three files `a`, `b`, `c` and no open stream. -/
def threeFiles : World :=
  { dir := [([97], 1), ([98], 2), ([99], 3)], folders := [],
    inodes := [(1, []), (2, []), (3, [])],
    streams := [], errno := 0, wcaps := [], opens := [] }

/-! ## Reference behaviour -/

/-- The next line of `l`: the bytes before the first newline byte together
with that newline, or all of `l` when it holds no newline. -/
def nextLine (l : List Nat) : List Nat :=
  l.takeWhile (fun b => decide (b ≠ 10)) ++ (l.dropWhile (fun b => decide (b ≠ 10))).take 1

/-- Outcomes of `n` successive calls of `gets` on the instance in `v`. -/
def c_file_gets_times (fuel : Nat) (v : Nat → mrbc_value) : Nat → World → List (Option Outcome)
  | 0, _ => []
  | n + 1, w =>
    match c_file_gets fuel w v 0 with
    | none => [none]
    | some (w1, o) => some o :: c_file_gets_times fuel v n w1

/-- Number of bytes the loop of `read` is to deliver when `avail` bytes lie
ahead of the position. -/
def readCount (flag_all : Bool) (length : Int) (avail : Nat) : Nat :=
  if flag_all then avail else min length.toNat avail

/-- What `puts` emits for one string: the string, and a newline after it when
the string is empty or does not end in one. -/
def putsLine (s : List Nat) : List Nat :=
  if s = [] ∨ s.getLast? ≠ some 10 then s ++ [10] else s

/-- What `write` places in the stream for the string arguments `ss` when the
host follows the short-write script `caps`: the accepted leading part of each
non-empty string in turn, up to the first write that accepts nothing; and the
script left over. -/
def writePlan : List Nat → List (List Nat) → List (List Nat) × List Nat
  | caps, [] => ([], caps)
  | caps, s :: rest =>
    if s = [] then writePlan caps rest
    else if (accept caps s.length).1 = 0 then ([], (accept caps s.length).2)
    else
      ((s.take (accept caps s.length).1) :: (writePlan (accept caps s.length).2 rest).1,
        (writePlan (accept caps s.length).2 rest).2)

/-- The directory after the paths `ps` have been unlinked, first to last. -/
def unlinkAll (ps : List (List Nat)) (d : List (List Nat × Nat)) : List (List Nat × Nat) :=
  ps.foldl (fun d p => Tbl.del (cstr p) d) d

/-- The round trip of the spec as one script: `f = File.new(path, "w")`,
`f.write(S)`, `f.close`, then `g = File.new(path)` (read mode) with `g.read`,
and `File.read(path)`.  The result holds what `write`, `g.read` and
`File.read` returned; `none` when a constructor raised or fuel ran out. -/
def roundTrip (fuel : Nat) (junk : Int) (w : World) (path S : List Nat) :
    Option (Outcome × Outcome × Outcome) :=
  match c_file_new w (regs .cls [.string path, .string [119]]) 2 with
  | (w1, .ret file) =>
    match c_file_write w1 (regs file [.string S]) 1 with
    | (w2, wrote) =>
      match c_file_close w2 (regs file []) 0 with
      | (w3, _) =>
        match c_file_new w3 (regs .cls [.string path]) 1 with
        | (w4, .ret file2) =>
          match c_file_read fuel junk w4 (regs file2 []) 0,
                c_file_read fuel junk w3 (regs .cls [.string path]) 1 with
          | some (_, r1), some (_, r2) => some (wrote, r1, r2)
          | _, _ => none
        | _ => none
  | _ => none

/-! ## Lemmas on tables -/

theorem Tbl.get_set_self {α β : Type} [DecidableEq α] (k : α) (v : β) (t : List (α × β)) :
    Tbl.get k (Tbl.set k v t) = some v := by
  induction t with
  | nil => simp [Tbl.set, Tbl.get]
  | cons e t ih =>
    obtain ⟨a, b⟩ := e
    by_cases h : a = k
    · simp [Tbl.set, Tbl.get, h]
    · simp [Tbl.set, Tbl.get, h, ih]

theorem Tbl.get_set_ne {α β : Type} [DecidableEq α] (j k : α) (v : β) (t : List (α × β))
    (h : k ≠ j) : Tbl.get j (Tbl.set k v t) = Tbl.get j t := by
  induction t with
  | nil => simp [Tbl.set, Tbl.get, h]
  | cons e t ih =>
    obtain ⟨a, b⟩ := e
    by_cases ha : a = k
    · subst ha
      simp [Tbl.set, Tbl.get, h]
    · by_cases hj : a = j
      · subst hj
        simp [Tbl.set, Tbl.get, ha]
      · simp [Tbl.set, Tbl.get, ha, hj, ih]

theorem Tbl.set_set {α β : Type} [DecidableEq α] (k : α) (v1 v2 : β) (t : List (α × β)) :
    Tbl.set k v2 (Tbl.set k v1 t) = Tbl.set k v2 t := by
  induction t with
  | nil => simp [Tbl.set]
  | cons e t ih =>
    obtain ⟨a, b⟩ := e
    by_cases ha : a = k
    · simp [Tbl.set, ha]
    · simp [Tbl.set, ha, ih]

theorem Tbl.set_same {α β : Type} [DecidableEq α] (k : α) (v : β) (t : List (α × β))
    (h : Tbl.get k t = some v) : Tbl.set k v t = t := by
  induction t with
  | nil => simp [Tbl.get] at h
  | cons e t ih =>
    obtain ⟨a, b⟩ := e
    by_cases ha : a = k
    · simp [Tbl.get, ha] at h
      simp [Tbl.set, ha, h]
    · simp [Tbl.get, ha] at h
      simp [Tbl.set, ha, ih h]

theorem Tbl.del_of_get_none {α β : Type} [DecidableEq α] (k : α) (t : List (α × β))
    (h : Tbl.get k t = none) : Tbl.del k t = t := by
  induction t with
  | nil => rfl
  | cons e t ih =>
    obtain ⟨a, b⟩ := e
    by_cases ha : a = k
    · simp [Tbl.get, ha] at h
    · simp [Tbl.get, ha] at h
      simp [Tbl.del, ha, ih h]

theorem Tbl.del_set {α β : Type} [DecidableEq α] (k : α) (v : β) (t : List (α × β)) :
    Tbl.del k (Tbl.set k v t) = Tbl.del k t := by
  induction t with
  | nil => simp [Tbl.set, Tbl.del]
  | cons e t ih =>
    obtain ⟨a, b⟩ := e
    by_cases ha : a = k
    · simp [Tbl.set, Tbl.del, ha]
    · simp [Tbl.set, Tbl.del, ha, ih]

theorem Tbl.get_del_self {α β : Type} [DecidableEq α] (k : α) (t : List (α × β)) :
    Tbl.get k (Tbl.del k t) = none := by
  induction t with
  | nil => rfl
  | cons e t ih =>
    obtain ⟨a, b⟩ := e
    by_cases ha : a = k
    · simp [Tbl.del, ha, ih]
    · simp [Tbl.del, ha, ih, Tbl.get]

theorem Tbl.get_del_ne {α β : Type} [DecidableEq α] (j k : α) (t : List (α × β))
    (h : k ≠ j) : Tbl.get j (Tbl.del k t) = Tbl.get j t := by
  induction t with
  | nil => rfl
  | cons e t ih =>
    obtain ⟨a, b⟩ := e
    by_cases ha : a = k
    · subst ha
      simp [Tbl.del, ih, Tbl.get, h]
    · by_cases hj : a = j
      · subst hj
        simp [Tbl.del, ha, Tbl.get]
      · simp [Tbl.del, ha, hj, ih, Tbl.get]

theorem le_foldr_max (ks : List Nat) (k : Nat) (h : k ∈ ks) : k ≤ ks.foldr max 0 := by
  induction ks with
  | nil => simp at h
  | cons a t ih =>
    simp only [List.mem_cons] at h
    simp only [List.foldr_cons]
    rcases h with h | h
    · subst h
      exact le_max_left _ _
    · exact le_trans (ih h) (le_max_right _ _)

theorem Tbl.get_none_of_not_mem {β : Type} (k : Nat) (t : List (Nat × β))
    (h : k ∉ t.map Prod.fst) : Tbl.get k t = none := by
  induction t with
  | nil => rfl
  | cons e t ih =>
    obtain ⟨a, b⟩ := e
    simp only [List.map_cons, List.mem_cons, not_or] at h
    have ha : a ≠ k := fun hh => h.1 hh.symm
    simp [Tbl.get, ha, ih h.2]

theorem Tbl.get_freshKey {β : Type} (t : List (Nat × β)) :
    Tbl.get (freshKey (t.map Prod.fst)) t = none := by
  apply Tbl.get_none_of_not_mem
  intro h
  have := le_foldr_max _ _ h
  simp [freshKey] at this

/-! ## Lemmas on the host -/

theorem wrap32_of_range (x : Int) (h1 : -2 ^ 31 ≤ x) (h2 : x < 2 ^ 31) : wrap32 x = x := by
  unfold wrap32
  omega

theorem wrap32_range (x : Int) : -2 ^ 31 ≤ wrap32 x ∧ wrap32 x < 2 ^ 31 := by
  unfold wrap32
  omega

theorem get_setPos (w : World) (fp : Nat) (f : FILE) (p : Nat) :
    Tbl.get fp (setPos w fp f p).streams = some { f with pos := p } := by
  simp [setPos, Tbl.get_set_self]

theorem content_setPos (w : World) (fp : Nat) (f : FILE) (p : Nat) (i : Nat) :
    content (setPos w fp f p) i = content w i := rfl

theorem setPos_setPos (w : World) (fp : Nat) (f : FILE) (p q : Nat) :
    setPos (setPos w fp f p) fp { f with pos := p } q = setPos w fp f q := by
  simp [setPos, Tbl.set_set]

theorem setPos_same (w : World) (fp : Nat) (f : FILE) (h : Tbl.get fp w.streams = some f) :
    setPos w fp f f.pos = w := by
  have : ({ f with pos := f.pos } : FILE) = f := by cases f; rfl
  simp [setPos, this, Tbl.set_same _ _ _ h]

theorem fread_of_get (w : World) (fp : Nat) (f : FILE) (n : Nat)
    (h : Tbl.get fp w.streams = some f) :
    fread w fp n =
      (setPos w fp f (f.pos + (((content w f.ino).drop f.pos).take n).length),
        ((content w f.ino).drop f.pos).take n) := by
  simp [fread, h]

theorem take_append_take_drop {α : Type} (l : List α) (n r : Nat) :
    l.take n ++ (l.drop (min n l.length)).take r = l.take (min n l.length + r) := by
  by_cases h : n ≤ l.length
  · rw [Nat.min_eq_left h, List.take_add]
  · have h1 : l.length ≤ n := by omega
    rw [Nat.min_eq_right h1, List.take_of_length_le h1, List.drop_length,
      List.take_of_length_le (by omega : l.length ≤ l.length + r)]
    simp

/-- One pass through the body of the loop of `read`. -/
theorem c_file_read_loop_step (B fuel : Nat) (w : World) (fp : Nat) (f : FILE)
    (flag_all : Bool) (length : Int) (acc : List Nat)
    (hget : Tbl.get fp w.streams = some f)
    (hc : (flag_all || decide (length > 0)) = true) :
    c_file_read_loop B (fuel + 1) w fp flag_all length acc =
      let m := (if (!flag_all && decide ((B : Int) > length)) = true then length else (B : Int)).toNat
      let got := ((content w f.ino).drop f.pos).take m
      if got.length = 0 then some (setPos w fp f (f.pos + got.length), acc)
      else c_file_read_loop B fuel (setPos w fp f (f.pos + got.length)) fp flag_all
        (wrap32 (length - (got.length : Int))) (acc ++ got) := by
  rw [c_file_read_loop]
  simp only [hc, if_true]
  rw [fread_of_get w fp f _ hget]

/-- The loop of `read`, whatever the size of the staging buffer, delivers the
next `readCount` bytes and moves the position past them. -/
theorem c_file_read_loop_spec (B : Nat) (hB : 1 ≤ B) :
    ∀ (fuel : Nat) (w : World) (fp : Nat) (f : FILE) (flag_all : Bool) (length : Int)
      (acc : List Nat),
      Tbl.get fp w.streams = some f →
      (content w f.ino).length - f.pos < fuel →
      (flag_all = false → length < 2 ^ 31) →
      c_file_read_loop B fuel w fp flag_all length acc =
        some (setPos w fp f
                (f.pos + readCount flag_all length ((content w f.ino).length - f.pos)),
              acc ++ ((content w f.ino).drop f.pos).take
                (readCount flag_all length ((content w f.ino).length - f.pos))) := by
  intro fuel
  induction fuel with
  | zero => intro w fp f flag_all length acc _ hf _; omega
  | succ fuel ih =>
    intro w fp f flag_all length acc hget hfuel hlen
    by_cases hc : (flag_all || decide (length > 0)) = true
    · rw [c_file_read_loop_step B fuel w fp f flag_all length acc hget hc]
      generalize hm : (if (!flag_all && decide ((B : Int) > length)) = true then length
        else (B : Int)).toNat = m
      have hm1 : 1 ≤ m := by
        subst hm
        cases flag_all
        · simp at hc ⊢
          split <;> omega
        · simpa using hB
      have hR : readCount flag_all length ((content w f.ino).length - f.pos)
          = min m ((content w f.ino).length - f.pos)
            + readCount flag_all (length - (min m ((content w f.ino).length - f.pos) : Nat))
                ((content w f.ino).length - f.pos - min m ((content w f.ino).length - f.pos)) := by
        subst hm
        cases flag_all
        · simp [readCount] at hc ⊢
          split <;> omega
        · simp [readCount]
      generalize hg : min m ((content w f.ino).length - f.pos) = g at hR
      have hgl : (((content w f.ino).drop f.pos).take m).length = g := by
        rw [List.length_take, List.length_drop]; exact hg
      simp only [hgl]
      by_cases h0 : g = 0
      · have hz : (content w f.ino).length - f.pos = 0 := by omega
        have hr0 : readCount flag_all length 0 = 0 := by
          cases flag_all <;> simp [readCount]
        simp [h0, hz, hr0]
      · simp only [h0, if_false]
        have hw : flag_all = false → wrap32 (length - (g : Int)) = length - (g : Int) := by
          intro hfa
          have := hlen hfa
          subst hfa
          simp at hc
          have hgm : g ≤ m := by omega
          have hml : (m : Int) ≤ length := by
            subst hm
            simp
            split <;> omega
          apply wrap32_of_range <;> omega
        have hrc : readCount flag_all (wrap32 (length - (g : Int)))
              ((content w f.ino).length - f.pos - g)
            = readCount flag_all (length - (g : Int)) ((content w f.ino).length - f.pos - g) := by
          cases flag_all
          · rw [hw rfl]
          · simp [readCount]
        rw [ih _ fp { f with pos := f.pos + g } flag_all _ _
          (get_setPos _ _ _ _) (by simp only [content_setPos]; omega)
          (by intro hfa; have := (wrap32_range (length - (g : Int))).2; exact this)]
        simp only [content_setPos, setPos_setPos, List.append_assoc]
        have hsub : (content w f.ino).length - (f.pos + g)
            = (content w f.ino).length - f.pos - g := by omega
        rw [hsub, hrc, hR]
        congr 2
        · congr 1; omega
        · have := take_append_take_drop ((content w f.ino).drop f.pos) m
            (readCount flag_all (length - (g : Int)) ((content w f.ino).length - f.pos - g))
          rw [List.length_drop, hg, List.drop_drop] at this
          rw [this]
    · have hfa : flag_all = false := by
        cases flag_all <;> simp at hc ⊢
      subst hfa
      simp at hc
      have hz : length.toNat = 0 := by omega
      cases fuel <;>
      simp [c_file_read_loop, readCount, hz, hc, setPos_same w fp f hget, not_lt.mpr hc]
theorem fopen_r_of_get (w : World) (path : List Nat) (i : Nat)
    (h : Tbl.get (cstr path) w.dir = some i) :
    fopen w path mode_r =
      ({ w with opens := w.opens ++ [(path, mode_r)],
                streams := (freshFp w, { ino := i, pos := 0, app := false }) :: w.streams },
        some (freshFp w)) := by
  have hm : cstr mode_r = [114] := by decide
  simp only [fopen, hm, h, openStream, freshFp]

theorem fclose_after_read (w : World) (ops : List (List Nat × List Nat)) (f : FILE) (p : Nat)
    (hf : f.wbuf = []) :
    fclose (setPos { w with opens := ops, streams := (freshFp w, f) :: w.streams }
      (freshFp w) f p) (freshFp w) = { w with opens := ops } := by
  have h := Tbl.del_of_get_none _ _ (Tbl.get_freshKey w.streams)
  simp only [freshFp] at h ⊢
  simp [fclose, fflush, setPos, Tbl.set, Tbl.get, Tbl.del, h, hf]

theorem nextLine_nil : nextLine [] = [] := rfl

theorem nextLine_cons_newline (t : List Nat) : nextLine (10 :: t) = [10] := by
  simp [nextLine]

theorem nextLine_cons_other (b : Nat) (t : List Nat) (h : b ≠ 10) :
    nextLine (b :: t) = b :: nextLine t := by
  simp [nextLine, h]

theorem drop_succ_of_drop_cons {α : Type} (c : List α) (p : Nat) (b : α) (t : List α)
    (h : c.drop p = b :: t) : c.drop (p + 1) = t := by
  have : c.drop (p + 1) = (c.drop p).drop 1 := by rw [List.drop_drop, Nat.add_comm]
  rw [this, h]
  rfl

/-- The loop of `gets` delivers the next line and moves the position past it. -/
theorem c_file_gets_loop_spec :
    ∀ (fuel : Nat) (w : World) (fp : Nat) (f : FILE) (acc : List Nat),
      Tbl.get fp w.streams = some f →
      (content w f.ino).length - f.pos < fuel →
      c_file_gets_loop fuel w fp acc =
        some (setPos w fp f (f.pos + (nextLine ((content w f.ino).drop f.pos)).length),
              acc ++ nextLine ((content w f.ino).drop f.pos)) := by
  intro fuel
  induction fuel with
  | zero => intro w fp f acc _ hf; omega
  | succ fuel ih =>
    intro w fp f acc hget hfuel
    rw [c_file_gets_loop, fread_of_get w fp f 1 hget]
    cases hl : (content w f.ino).drop f.pos with
    | nil => simp [nextLine_nil]
    | cons b t =>
      have hlen : f.pos < (content w f.ino).length := by
        by_contra hh
        rw [List.drop_eq_nil_of_le (by omega)] at hl
        simp at hl
      by_cases hb : b = 10
      · subst hb
        simp [nextLine_cons_newline]
      · have hd := drop_succ_of_drop_cons _ _ _ _ hl
        simp only [List.take_succ_cons, List.take_zero, List.length_singleton, one_ne_zero,
          ne_eq, not_false_eq_true, if_true, List.head?_cons, Option.some.injEq, hb, if_false]
        rw [ih _ fp { f with pos := f.pos + 1 } _ (get_setPos _ _ _ _)
          (by simp only [content_setPos]; omega)]
        simp only [content_setPos, setPos_setPos, hd, nextLine_cons_other b t hb,
          List.length_cons, List.append_assoc, List.singleton_append]
        congr 3
        omega

theorem nextLine_eq_nil_iff (l : List Nat) : nextLine l = [] ↔ l = [] := by
  cases l with
  | nil => simp [nextLine]
  | cons b t =>
    by_cases hb : b = 10
    · subst hb; simp [nextLine_cons_newline]
    · simp [nextLine_cons_other b t hb]

theorem length_take_pad (c : List Nat) (off : Nat) :
    ((c ++ List.replicate (off - c.length) 0).take off).length = off := by
  simp only [List.length_take, List.length_append, List.length_replicate]
  omega

theorem writeAt_writeAt (c : List Nat) (off : Nat) (a b : List Nat) :
    writeAt (writeAt c off a) (off + a.length) b = writeAt c off (a ++ b) := by
  unfold writeAt
  generalize hP : (c ++ List.replicate (off - c.length) 0).take off = P
  have hPl : P.length = off := by rw [← hP]; exact length_take_pad c off
  have hlen : (P ++ a ++ List.drop (off + a.length) c).length
      = off + a.length + (c.length - (off + a.length)) := by
    simp [hPl]
    omega
  have hz : off + a.length - (P ++ a ++ List.drop (off + a.length) c).length = 0 := by
    rw [hlen]; omega
  rw [hz]
  simp only [List.replicate_zero, List.append_nil, List.length_append]
  have h1 : (P ++ a ++ List.drop (off + a.length) c).take (off + a.length) = P ++ a := by
    rw [List.take_append_of_le_length (by simp [hPl])]
    exact List.take_of_length_le (by simp [hPl])
  have h2 : (P ++ a ++ List.drop (off + a.length) c).drop (off + a.length + b.length)
      = c.drop (off + (a.length + b.length)) := by
    have : off + a.length + b.length = (P ++ a).length + b.length := by simp [hPl]
    rw [this, List.drop_append, List.drop_drop]
    congr 1
    omega
  rw [h1, h2]
  simp

theorem writeAt_at_end (c out : List Nat) : writeAt c c.length out = c ++ out := by
  simp [writeAt]

theorem put_nil (w : World) (fp : Nat) : put w fp [] = w := by
  unfold put
  split <;> simp

theorem put_of_get (w : World) (fp : Nat) (f : FILE) (out : List Nat)
    (hget : Tbl.get fp w.streams = some f) (hne : out ≠ []) :
    put w fp out =
      { w with
        streams :=
          Tbl.set fp { f with pos := writeOff w f + out.length, wbuf := f.wbuf ++ out }
            w.streams } := by
  simp [put, hget, hne]

theorem put_wcaps (w : World) (fp : Nat) (out caps : List Nat) :
    put { w with wcaps := caps } fp out = { put w fp out with wcaps := caps } := by
  unfold put
  simp only
  split
  · rfl
  · split <;> rfl

theorem put_put (w : World) (fp : Nat) (f : FILE) (a b : List Nat)
    (hget : Tbl.get fp w.streams = some f) :
    put (put w fp a) fp b = put w fp (a ++ b) := by
  by_cases ha : a = []
  · subst ha; simp [put_nil]
  by_cases hb : b = []
  · subst hb; simp [put_nil]
  have hab : a ++ b ≠ [] := by simp [ha]
  rw [put_of_get w fp f a hget ha, put_of_get w fp f (a ++ b) hget hab]
  rw [put_of_get _ fp { f with pos := writeOff w f + a.length, wbuf := f.wbuf ++ a } b
    (by simp [Tbl.get_set_self]) hb]
  have hoff : writeOff
      { w with
        streams :=
          Tbl.set fp { f with pos := writeOff w f + a.length, wbuf := f.wbuf ++ a }
            w.streams }
      { f with pos := writeOff w f + a.length, wbuf := f.wbuf ++ a }
        = writeOff w f + a.length := by
    unfold writeOff
    cases hf : f.app
    · simp
    · simp [content, Nat.add_assoc]
  rw [hoff]
  simp only [Tbl.set_set, List.length_append, Nat.add_assoc, List.append_assoc]

theorem get_put (w : World) (fp : Nat) (f : FILE) (out : List Nat)
    (hget : Tbl.get fp w.streams = some f) :
    ∃ g, Tbl.get fp (put w fp out).streams = some g := by
  by_cases h : out = []
  · subst h; rw [put_nil]; exact ⟨f, hget⟩
  · rw [put_of_get w fp f out hget h]
    exact ⟨_, Tbl.get_set_self _ _ _⟩

theorem wcaps_put (w : World) (fp : Nat) (out : List Nat) : (put w fp out).wcaps = w.wcaps := by
  unfold put
  split
  · rfl
  · split <;> rfl

theorem fwrite_full (w : World) (fp : Nat) (f : FILE) (bs : List Nat)
    (hget : Tbl.get fp w.streams = some f) (hcaps : w.wcaps = []) :
    fwrite w fp bs = (put w fp bs, bs.length) := by
  by_cases hb : bs = []
  · subst hb; simp [fwrite, hget, put_nil]
  · have hw : ({ w with wcaps := [] } : World) = w := by
      cases w; simp at hcaps; simp [hcaps]
    simp [fwrite, hget, hb, hcaps, accept, hw]

/-- The loop of `puts` over string arguments, on a host that accepts every byte. -/
theorem c_file_puts_loop_spec (v : Nat → mrbc_value) (fp : Nat) :
    ∀ (ss : List (List Nat)) (i : Nat) (w : World) (f : FILE),
      (∀ j s, ss[j]? = some s → v (i + j) = .string s) →
      Tbl.get fp w.streams = some f → w.wcaps = [] →
      c_file_puts_loop v fp ss.length i w = (put w fp (ss.map putsLine).flatten, .ret .nil) := by
  intro ss
  induction ss with
  | nil => intro i w f _ _ _; simp [c_file_puts_loop, put_nil]
  | cons s rest ih =>
    intro i w f hv hget hcaps
    have h0 : v i = .string s := by simpa using hv 0 s (by simp)
    have hrest : ∀ j t, rest[j]? = some t → v (i + 1 + j) = .string t := by
      intro j t hj
      have := hv (j + 1) t (by simpa using hj)
      rw [← this]; congr 1; omega
    simp only [List.length_cons, c_file_puts_loop, h0, mrbc_value.tt, ne_eq, not_true_eq_false,
      if_false, RSTRING_PTR, RSTRING_LEN, List.length_eq_zero]
    rw [fwrite_full w fp f s hget hcaps]
    obtain ⟨g, hg⟩ := get_put w fp f s hget
    have hc1 : (put w fp s).wcaps = [] := by rw [wcaps_put]; exact hcaps
    have hstep : (if s = [] ∨ s.getLast? ≠ some 10 then putc (put w fp s) 10 fp else put w fp s)
        = put w fp (putsLine s) := by
      unfold putsLine putc
      split
      · rw [fwrite_full _ fp g [10] hg hc1, put_put w fp f s [10] hget]
      · rfl
    simp only [hstep]
    obtain ⟨g2, hg2⟩ := get_put w fp f (putsLine s) hget
    rw [ih (i + 1) _ g2 hrest hg2 (by rw [wcaps_put]; exact hcaps),
      put_put w fp f _ _ hget]
    simp

theorem regs_args (recv : mrbc_value) (ss : List (List Nat)) :
    ∀ j s, ss[j]? = some s → regs recv (ss.map .string) (1 + j) = .string s := by
  intro j s h
  rw [Nat.add_comm]
  simp [regs, List.getD_eq_getElem?_getD, h]

theorem content_put (w : World) (fp : Nat) (out : List Nat) (i : Nat) :
    content (put w fp out) i = content w i := by
  unfold put
  split
  · rfl
  · split <;> rfl

theorem length_writeAt_ge (c : List Nat) (off : Nat) (out : List Nat) :
    off + out.length ≤ (writeAt c off out).length := by
  unfold writeAt
  simp only [List.length_append, length_take_pad, List.length_drop]
  omega

theorem content_fclose (w : World) (fp : Nat) (f : FILE)
    (hget : Tbl.get fp w.streams = some f) :
    content (fclose w fp) f.ino =
      if f.wbuf = [] then content w f.ino
      else writeAt (content w f.ino) (flushOff w f) f.wbuf := by
  by_cases h : f.wbuf = []
  · simp [fclose, fflush, hget, h, content]
  · simp [fclose, fflush, hget, h, content, Tbl.get_set_self]

/-- Output placed in a stream that stands at the end of its file is appended
to the file once the stream is closed. -/
theorem content_fclose_put (w : World) (fp : Nat) (f : FILE) (out : List Nat)
    (hget : Tbl.get fp w.streams = some f)
    (hend : writeOff w f = (content (fclose w fp) f.ino).length) :
    content (fclose (put w fp out) fp) f.ino = content (fclose w fp) f.ino ++ out := by
  by_cases h : out = []
  · subst h; simp [put_nil]
  rw [content_fclose w fp f hget] at hend ⊢
  have hget2 : Tbl.get fp (put w fp out).streams
      = some { f with pos := writeOff w f + out.length, wbuf := f.wbuf ++ out } := by
    rw [put_of_get w fp f out hget h]
    exact Tbl.get_set_self _ _ _
  have hc := content_fclose (put w fp out) fp _ hget2
  simp only [content_put] at hc
  rw [hc]
  have hne : f.wbuf ++ out ≠ [] := by simp [h]
  simp only [hne, if_false]
  have hoff : flushOff (put w fp out)
      { f with pos := writeOff w f + out.length, wbuf := f.wbuf ++ out } = flushOff w f := by
    unfold flushOff writeOff
    cases hf : f.app
    · simp; omega
    · simp [content_put]
  rw [hoff]
  by_cases hb : f.wbuf = []
  · simp only [hb, if_true, List.nil_append] at hend ⊢
    have hbase : flushOff w f = (content w f.ino).length := by
      unfold flushOff writeOff at *
      cases hf : f.app
      · simp [hf, hb] at hend ⊢; exact hend
      · simp
    rw [hbase, writeAt_at_end]
  · simp only [hb, if_false] at hend ⊢
    have hge := length_writeAt_ge (content w f.ino) (flushOff w f) f.wbuf
    have hL : flushOff w f + f.wbuf.length = writeOff w f := by
      unfold flushOff writeOff at *
      cases hf : f.app
      · simp [hf] at hend hge ⊢; omega
      · simp
    rw [← writeAt_writeAt, hL, hend, writeAt_at_end]

theorem fwrite_of_get (w : World) (fp : Nat) (f : FILE) (bs : List Nat)
    (hget : Tbl.get fp w.streams = some f) (hb : bs ≠ []) :
    fwrite w fp bs =
      ({ put w fp (bs.take (accept w.wcaps bs.length).1) with
          wcaps := (accept w.wcaps bs.length).2 },
        (accept w.wcaps bs.length).1) := by
  simp [fwrite, hget, hb, put_wcaps]

theorem accept_le (caps : List Nat) (n : Nat) : (accept caps n).1 ≤ n := by
  unfold accept
  split <;> simp

/-- The loop of `write` over string arguments. -/
theorem c_file_write_loop_spec (v : Nat → mrbc_value) (fp : Nat) :
    ∀ (ss : List (List Nat)) (i : Nat) (w : World) (f : FILE) (length : Int),
      (∀ j s, ss[j]? = some s → v (i + j) = .string s) →
      Tbl.get fp w.streams = some f →
      0 ≤ length →
      length + ((writePlan w.wcaps ss).1.flatten.length : Int) < 2 ^ 31 →
      c_file_write_loop v fp ss.length i w length =
        ({ put w fp (writePlan w.wcaps ss).1.flatten with wcaps := (writePlan w.wcaps ss).2 },
          .ret (.integer (length + ((writePlan w.wcaps ss).1.flatten.length : Int)))) := by
  intro ss
  induction ss with
  | nil =>
    intro i w f length _ _ _ _
    simp [c_file_write_loop, writePlan, put_nil]
  | cons s rest ih =>
    intro i w f length hv hget hl0 hbound
    have h0 : v i = .string s := by simpa using hv 0 s (by simp)
    have hrest : ∀ j t, rest[j]? = some t → v (i + 1 + j) = .string t := by
      intro j t hj
      have := hv (j + 1) t (by simpa using hj)
      rw [← this]; congr 1; omega
    by_cases hs : s = []
    · subst hs
      simp only [writePlan, if_true] at hbound ⊢
      simp only [List.length_cons, c_file_write_loop, h0, mrbc_value.tt, ne_eq,
        not_true_eq_false, if_false, RSTRING_LEN, RSTRING_PTR, List.length_nil, if_true]
      exact ih (i + 1) w f length hrest hget hl0 hbound
    · have hsl : s.length ≠ 0 := by simpa using hs
      simp only [List.length_cons, c_file_write_loop, h0, mrbc_value.tt, ne_eq,
        not_true_eq_false, if_false, RSTRING_LEN, RSTRING_PTR, hsl]
      rw [fwrite_of_get w fp f s hget hs]
      simp only [writePlan, hs, if_false] at hbound ⊢
      generalize ha : accept w.wcaps s.length = a at hbound ⊢
      have hale : a.1 ≤ s.length := by rw [← ha]; exact accept_le _ _
      by_cases hz : a.1 = 0
      · simp [hz, wrap32, put_nil]
      · simp only [hz, if_false] at hbound ⊢
        have htl : (s.take a.1).length = a.1 := by simp [hale]
        simp only [List.flatten_cons, List.length_append, htl, Nat.cast_add] at hbound ⊢
        have hwa : wrap32 (a.1 : Int) = (a.1 : Int) := by
          apply wrap32_of_range <;> omega
        have hwl : wrap32 (length + (a.1 : Int)) = length + (a.1 : Int) := by
          apply wrap32_of_range <;> omega
        have hnz : ¬ ((a.1 : Int) = 0) := by omega
        simp only [hwa, hnz, if_false, hwl]
        obtain ⟨g, hg⟩ := get_put w fp f (s.take a.1) hget
        rw [ih (i + 1) _ g (length + (a.1 : Int)) hrest (by simpa using hg) (by omega)
          (by simp only []; omega)]
        simp only [put_wcaps, put_put w fp f _ _ hget, Int.add_assoc]

theorem writePlan_skip_empty (caps : List Nat) (pre post : List (List Nat)) :
    writePlan caps (pre ++ [] :: post) = writePlan caps (pre ++ post) := by
  induction pre generalizing caps with
  | nil => simp [writePlan]
  | cons t pre ih =>
    simp only [List.cons_append, writePlan]
    split
    · exact ih caps
    · split
      · rfl
      · simp only [List.append_eq, ih]

theorem writePlan_stop (caps : List Nat) (pre : List (List Nat)) (s : List Nat)
    (post post2 : List (List Nat)) (hs : s ≠ [])
    (hz : (accept (writePlan caps pre).2 s.length).1 = 0) :
    writePlan caps (pre ++ s :: post) = writePlan caps (pre ++ s :: post2) := by
  induction pre generalizing caps with
  | nil =>
    simp only [writePlan, List.nil_append] at hz ⊢
    simp [hs, hz]
  | cons t pre ih =>
    simp only [List.cons_append, writePlan] at hz ⊢
    split
    · rename_i ht
      simp only [ht, if_true] at hz
      exact ih caps hz
    · rename_i ht
      simp only [ht, if_false] at hz
      split
      · rfl
      · rename_i hne
        simp only [hne, if_false] at hz
        simp only [List.append_eq, ih _ hz]

theorem remove_of_get (w : World) (p : List Nat) (h : Tbl.get (cstr p) w.dir ≠ none) :
    remove w p = ({ w with dir := Tbl.del (cstr p) w.dir }, 0) := by
  obtain ⟨i, hi⟩ := Option.ne_none_iff_exists'.mp h
  simp [remove, hi]

theorem remove_of_get_none (w : World) (p : List Nat) (h : Tbl.get (cstr p) w.dir = none) :
    remove w p = ({ w with errno := ENOENT }, -1) := by
  simp [remove, h]

/-- The loop of `delete` runs through arguments that are distinct existing
paths, unlinking each. -/
theorem c_file_delete_loop_spec (v : Nat → mrbc_value) :
    ∀ (ps : List (List Nat)) (n i : Nat) (w : World),
      (∀ j p, ps[j]? = some p → v (i + j) = .string p) →
      (ps.map cstr).Nodup →
      (∀ p ∈ ps, Tbl.get (cstr p) w.dir ≠ none) →
      c_file_delete_loop v (ps.length + n) i w =
        c_file_delete_loop v n (i + ps.length) { w with dir := unlinkAll ps w.dir } := by
  intro ps
  induction ps with
  | nil => intro n i w _ _ _; simp [unlinkAll]
  | cons p ps ih =>
    intro n i w hv hnd hex
    have h0 : v i = .string p := by simpa using hv 0 p (by simp)
    have hrest : ∀ j t, ps[j]? = some t → v (i + 1 + j) = .string t := by
      intro j t hj
      have := hv (j + 1) t (by simpa using hj)
      rw [← this]; congr 1; omega
    simp only [List.map_cons, List.nodup_cons] at hnd
    have hex1 : ∀ q ∈ ps, Tbl.get (cstr q) (Tbl.del (cstr p) w.dir) ≠ none := by
      intro q hq
      have hne : cstr p ≠ cstr q := by
        intro he
        exact hnd.1 (he ▸ List.mem_map_of_mem cstr hq)
      rw [Tbl.get_del_ne _ _ _ hne]
      exact hex q (List.mem_cons_of_mem _ hq)
    have hlen : (p :: ps).length + n = (ps.length + n) + 1 := by
      simp only [List.length_cons]; omega
    rw [hlen, c_file_delete_loop]
    simp only [h0, mrbc_value.tt, ne_eq, not_true_eq_false, if_false, RSTRING_PTR]
    rw [remove_of_get w p (hex p (List.mem_cons_self _ _))]
    simp only [if_false]
    rw [ih n (i + 1) _ hrest hnd.2 hex1]
    have hi : i + 1 + ps.length = i + (ps.length + 1) := by omega
    simp [unlinkAll, List.foldl_cons, List.length_cons, hi]

theorem get_unlinkAll_of_not_mem (ps : List (List Nat)) (d : List (List Nat × Nat))
    (q : List Nat) (h : q ∉ ps.map cstr) : Tbl.get q (unlinkAll ps d) = Tbl.get q d := by
  induction ps generalizing d with
  | nil => rfl
  | cons p ps ih =>
    simp only [List.map_cons, List.mem_cons, not_or] at h
    simp only [unlinkAll, List.foldl_cons]
    have := ih (Tbl.del (cstr p) d) h.2
    simp only [unlinkAll] at this
    rw [this, Tbl.get_del_ne _ _ _ (fun he => h.1 he.symm)]

theorem get_unlinkAll_none (ps : List (List Nat)) (d : List (List Nat × Nat))
    (q : List Nat) (h : Tbl.get q d = none) : Tbl.get q (unlinkAll ps d) = none := by
  induction ps generalizing d with
  | nil => exact h
  | cons p ps ih =>
    simp only [unlinkAll, List.foldl_cons]
    apply ih
    by_cases he : cstr p = q
    · subst he; exact Tbl.get_del_self _ _
    · rw [Tbl.get_del_ne _ _ _ he]; exact h

theorem get_unlinkAll_of_mem (ps : List (List Nat)) (d : List (List Nat × Nat))
    (p : List Nat) (h : p ∈ ps) : Tbl.get (cstr p) (unlinkAll ps d) = none := by
  induction ps generalizing d with
  | nil => simp at h
  | cons a ps ih =>
    simp only [unlinkAll, List.foldl_cons]
    by_cases hm : p ∈ ps
    · exact ih _ hm
    · simp only [List.mem_cons, hm, or_false] at h
      subst h
      exact get_unlinkAll_none ps _ _ (Tbl.get_del_self _ _)

theorem regs_args_append (recv : mrbc_value) (ps : List (List Nat)) (tl : List mrbc_value) :
    ∀ j p, ps[j]? = some p → regs recv (ps.map .string ++ tl) (1 + j) = .string p := by
  intro j p h
  rw [Nat.add_comm]
  obtain ⟨hj, hp⟩ := List.getElem?_eq_some.mp h
  have hj2 : j < (ps.map mrbc_value.string).length := by simpa using hj
  simp [regs, List.getD_eq_getElem?_getD, List.getElem?_append_left hj2, h]

theorem regs_args_next (recv : mrbc_value) (ps : List (List Nat)) (x : mrbc_value)
    (tl : List mrbc_value) : regs recv (ps.map .string ++ x :: tl) (1 + ps.length) = x := by
  rw [Nat.add_comm]
  have h : (ps.map mrbc_value.string ++ x :: tl)[ps.length]?
      = (x :: tl)[ps.length - (ps.map mrbc_value.string).length]? :=
    List.getElem?_append_right (by simp)
  simp only [List.length_map, Nat.sub_self] at h
  simp [regs, List.getD_eq_getElem?_getD, h]

theorem fopen_opens (w : World) (p m : List Nat) :
    (fopen w p m).1.opens = w.opens ++ [(p, m)] := by
  unfold fopen
  simp only [openStream, createStream]
  split <;> (try split) <;> (try split) <;> (try split) <;> rfl

theorem fopen_result (w : World) (p m : List Nat) :
    ((fopen w p m).2 = none ∧ (fopen w p m).1.streams = w.streams)
    ∨ (∃ f, (fopen w p m).2 = some (freshFp w)
        ∧ (fopen w p m).1.streams = (freshFp w, f) :: w.streams) := by
  unfold fopen
  simp only [openStream, createStream, freshFp]
  split <;> (try split) <;> (try split) <;> (try split) <;> first
    | exact Or.inl ⟨rfl, rfl⟩
    | exact Or.inr ⟨_, rfl, rfl⟩

theorem c_file_read_instance_all (w : World) (fp : Nat) (f : FILE) (fuel : Nat) (junk : Int)
    (hget : Tbl.get fp w.streams = some f)
    (hfuel : (content w f.ino).length - f.pos < fuel) :
    c_file_read fuel junk w (regs (.object fp) []) 0 =
      some (setPos w fp f (f.pos + ((content w f.ino).length - f.pos)),
        .ret (.string ((content w f.ino).drop f.pos))) := by
  have hl := c_file_read_loop_spec 32 (by decide) fuel w fp f true (wrap32 junk) [] hget hfuel
    (by simp)
  simp [c_file_read, c_file_read_sized, regs, mrbc_value.tt, MRBC_INSTANCE_DATA, hl, readCount]

theorem c_file_read_class_all (w : World) (path : List Nat) (i : Nat) (fuel : Nat) (junk : Int)
    (hdir : Tbl.get (cstr path) w.dir = some i)
    (hfuel : (content w i).length < fuel) :
    c_file_read fuel junk w (regs .cls [.string path]) 1 =
      some ({ w with opens := w.opens ++ [(path, mode_r)] }, .ret (.string (content w i))) := by
  have hl2 := c_file_read_loop_spec 32 (by decide) fuel
    { w with opens := w.opens ++ [(path, mode_r)],
             streams := (freshFp w, { ino := i, pos := 0, app := false }) :: w.streams }
    (freshFp w) { ino := i, pos := 0, app := false } true (wrap32 junk) []
    (by simp [Tbl.get]) (by simpa [content] using hfuel) (by simp)
  have hc : content
      { w with opens := w.opens ++ [(path, mode_r)],
               streams := (freshFp w, { ino := i, pos := 0, app := false }) :: w.streams } i
      = content w i := rfl
  simp only [hc, readCount, if_true, Nat.sub_zero, Nat.zero_add, List.drop_zero, List.nil_append,
    List.take_length] at hl2
  simp [c_file_read, c_file_read_sized, regs, mrbc_value.tt, RSTRING_PTR,
    fopen_r_of_get w path i hdir, hl2, fclose_after_read]

theorem fopen_w_spec (w : World) (path : List Nat)
    (hfresh : Tbl.get (cstr path) w.dir = none)
    (hcreate : canCreate w (cstr path) = true) :
    ∃ i, (fopen w path [119]).2 = some (freshFp w)
      ∧ (fopen w path [119]).1.streams =
          (freshFp w, { ino := i, pos := 0, app := false }) :: w.streams
      ∧ Tbl.get (cstr path) (fopen w path [119]).1.dir = some i
      ∧ content (fopen w path [119]).1 i = []
      ∧ (fopen w path [119]).1.wcaps = w.wcaps := by
  have hm : cstr [119] = [119] := by decide
  have hc : canCreate { w with opens := w.opens ++ [(path, [119])] } (cstr path) = true :=
    hcreate
  refine ⟨freshIno { w with opens := w.opens ++ [(path, [119])] }, ?_, ?_, ?_, ?_, ?_⟩ <;>
    simp [fopen, hm, hfresh, createStream, hc, openStream, freshFp, content,
      Tbl.get_set_self]

theorem dir_fclose (w : World) (fp : Nat) : (fclose w fp).dir = w.dir := by
  unfold fclose fflush
  split
  · rfl
  · split <;> rfl

theorem dir_put (w : World) (fp : Nat) (out : List Nat) : (put w fp out).dir = w.dir := by
  unfold put
  split
  · rfl
  · split <;> rfl

theorem c_file_write_single (w : World) (fp : Nat) (f : FILE) (S : List Nat)
    (hget : Tbl.get fp w.streams = some f) (hcaps : w.wcaps = []) :
    (c_file_write w (regs (.object fp) [.string S]) 1).1 = put w fp S
    ∧ ((S.length : Int) < 2 ^ 31 →
        (c_file_write w (regs (.object fp) [.string S]) 1).2 = .ret (.integer S.length)) := by
  by_cases hS : S = []
  · subst hS
    simp [c_file_write, c_file_write_loop, regs, mrbc_value.tt, RSTRING_LEN, RSTRING_PTR,
      put_nil]
  · have hl : S.length ≠ 0 := by simpa using hS
    simp only [c_file_write, c_file_write_loop, regs, mrbc_value.tt, RSTRING_LEN, RSTRING_PTR,
      MRBC_INSTANCE_DATA, List.getD_cons_zero, ne_eq, not_true_eq_false, if_false, hl,
      fwrite_full w fp f S hget hcaps]
    constructor
    · split <;> rfl
    · intro hb
      have hw : wrap32 (S.length : Int) = (S.length : Int) := by
        apply wrap32_of_range <;> omega
      have hnz : ¬ ((S.length : Int) = 0) := by omega
      simp [hw, hnz]

theorem c_file_new_two (w : World) (p m : List Nat) (fp : Nat)
    (h : (fopen w p m).2 = some fp) :
    c_file_new w (regs .cls [.string p, .string m]) 2 = ((fopen w p m).1, .ret (.object fp)) := by
  simp only [c_file_new, regs, List.getD_cons_zero, List.getD_cons_succ, ge_iff_le,
    Nat.one_le_ofNat, if_true, le_refl]
  rcases hfo : fopen w p m with ⟨w1, r⟩
  rw [hfo] at h
  simp only at h
  subst h
  rfl

theorem c_file_new_one (w : World) (p : List Nat) (fp : Nat)
    (h : (fopen w p mode_r).2 = some fp) :
    c_file_new w (regs .cls [.string p]) 1 = ((fopen w p mode_r).1, .ret (.object fp)) := by
  simp only [c_file_new, regs, List.getD_cons_zero, ge_iff_le, le_refl, if_true]
  rcases hfo : fopen w p mode_r with ⟨w1, r⟩
  rw [hfo] at h
  simp only at h
  subst h
  simp [hfo]

theorem c_file_read_loop_any_size (B : Nat) (hB : 1 ≤ B) (fuel : Nat) (w : World) (fp : Nat)
    (flag_all : Bool) (length : Int) (acc : List Nat)
    (hfuel : ∀ i, (content w i).length < fuel) (hlen : length < 2 ^ 31) :
    c_file_read_loop B fuel w fp flag_all length acc =
      c_file_read_loop 32 fuel w fp flag_all length acc := by
  cases h : Tbl.get fp w.streams with
  | none =>
    cases fuel with
    | zero => rfl
    | succ n => simp [c_file_read_loop, fread, h]
  | some f =>
    have hf : (content w f.ino).length - f.pos < fuel := by
      have := hfuel f.ino
      omega
    rw [c_file_read_loop_spec B hB fuel w fp f flag_all length acc h hf (fun _ => hlen),
      c_file_read_loop_spec 32 (by decide) fuel w fp f flag_all length acc h hf (fun _ => hlen)]

theorem content_fopen_r (w : World) (path : List Nat) (i : Nat) :
    content (fopen w path mode_r).1 i = content w i := by
  have hm : cstr mode_r = [114] := by decide
  simp only [fopen, hm, openStream]
  split <;> rfl

/-! ## The claims -/

/-- C1. Instance form with an integer length: on an open stream over the bytes
`c` at position `p`, `file.read(k)` with `0 ≤ k` (`k` an `int`, so below
`2 ^ 31`) returns exactly the bytes of `c` from `p` up to
`p + min k (|c| - p)`, in order, and leaves the position at
`p + min k (|c| - p)`; fuel above `|c| - p` is enough for the loop. -/
theorem c_file_read_length_bounded (w : World) (fp : Nat) (f : FILE) (k : Int) (fuel : Nat)
    (junk : Int)
    (hget : Tbl.get fp w.streams = some f)
    (hk0 : 0 ≤ k) (hk : k < 2 ^ 31)
    (hfuel : (content w f.ino).length - f.pos < fuel) :
    c_file_read fuel junk w (regs (.object fp) [.integer k]) 1 =
      some (setPos w fp f (f.pos + min k.toNat ((content w f.ino).length - f.pos)),
        .ret (.string (((content w f.ino).drop f.pos).take
          (min k.toNat ((content w f.ino).length - f.pos))))) := by
  have hw : wrap32 k = k := wrap32_of_range k (by omega) hk
  have hl := c_file_read_loop_spec 32 (by decide) fuel w fp f false k [] hget hfuel (fun _ => hk)
  simp [c_file_read, c_file_read_sized, regs, mrbc_value.tt, MRBC_INSTANCE_DATA, hw, hl,
    readCount]

/-- Reading three bytes at offset 1 of a five-byte stream. -/
theorem c_file_read_length_bounded_witness :
    Tbl.get 1 (sampleWorld [1, 2, 3, 4, 5] 1).streams = some { ino := 1, pos := 1, app := false }
    ∧ c_file_read 5 0 (sampleWorld [1, 2, 3, 4, 5] 1) (regs (.object 1) [.integer 3]) 1 =
        some (sampleWorld [1, 2, 3, 4, 5] 4, .ret (.string [2, 3, 4])) :=
  ⟨by decide,
   c_file_read_length_bounded (sampleWorld [1, 2, 3, 4, 5] 1) 1
     { ino := 1, pos := 1, app := false } 3 5 0 (by decide) (by decide) (by decide) (by decide)⟩

/-- C2. Read-all in both forms: with the length absent or nil, `file.read`
returns the bytes from the position to the end and leaves the position at the
end; `File.read(path)` and `File.read(path, nil)` return the whole file and
close their stream, which stood at the end of the file after the loop. -/
theorem c_file_read_all (w : World) (fp : Nat) (f : FILE) (path : List Nat) (i : Nat)
    (fuel : Nat) (junk : Int)
    (hget : Tbl.get fp w.streams = some f)
    (hp : f.pos ≤ (content w f.ino).length)
    (hdir : Tbl.get (cstr path) w.dir = some i)
    (hfuel : (content w f.ino).length - f.pos < fuel)
    (hfuel2 : (content w i).length < fuel) :
    c_file_read fuel junk w (regs (.object fp) []) 0 =
        some (setPos w fp f (content w f.ino).length,
          .ret (.string ((content w f.ino).drop f.pos)))
    ∧ c_file_read fuel junk w (regs (.object fp) [.nil]) 1 =
        some (setPos w fp f (content w f.ino).length,
          .ret (.string ((content w f.ino).drop f.pos)))
    ∧ c_file_read fuel junk w (regs .cls [.string path]) 1 =
        some ({ w with opens := w.opens ++ [(path, mode_r)] }, .ret (.string (content w i)))
    ∧ c_file_read fuel junk w (regs .cls [.string path, .nil]) 2 =
        some ({ w with opens := w.opens ++ [(path, mode_r)] }, .ret (.string (content w i)))
    ∧ (c_file_read_loop 32 fuel (fopen w path mode_r).1 ((fopen w path mode_r).2.getD 0) true
          (wrap32 junk) []).map
        (fun r => (Tbl.get ((fopen w path mode_r).2.getD 0) r.1.streams, r.2)) =
        some (some { ino := i, pos := (content w i).length, app := false }, content w i) := by
  have hl := c_file_read_loop_spec 32 (by decide) fuel w fp f true (wrap32 junk) [] hget hfuel
    (by simp)
  have hN : f.pos + ((content w f.ino).length - f.pos) = (content w f.ino).length := by omega
  have hl2 := c_file_read_loop_spec 32 (by decide) fuel
    { w with opens := w.opens ++ [(path, mode_r)],
             streams := (freshFp w, { ino := i, pos := 0, app := false }) :: w.streams }
    (freshFp w) { ino := i, pos := 0, app := false } true (wrap32 junk) []
    (by simp [Tbl.get]) (by simpa [content] using hfuel2) (by simp)
  have hc : content
      { w with opens := w.opens ++ [(path, mode_r)],
               streams := (freshFp w, { ino := i, pos := 0, app := false }) :: w.streams } i
      = content w i := rfl
  simp only [hc, readCount, if_true, Nat.sub_zero, Nat.zero_add, List.drop_zero, List.nil_append,
    List.take_length] at hl2
  refine ⟨?_, ?_, ?_, ?_, ?_⟩
  · simp [c_file_read, c_file_read_sized, regs, mrbc_value.tt, MRBC_INSTANCE_DATA, hl,
      readCount, hN]
  · simp [c_file_read, c_file_read_sized, regs, mrbc_value.tt, MRBC_INSTANCE_DATA, hl,
      readCount, hN]
  · simp [c_file_read, c_file_read_sized, regs, mrbc_value.tt, RSTRING_PTR,
      fopen_r_of_get w path i hdir, hl2, fclose_after_read]
  · simp [c_file_read, c_file_read_sized, regs, mrbc_value.tt, RSTRING_PTR,
      fopen_r_of_get w path i hdir, hl2, fclose_after_read]
  · simp [fopen_r_of_get w path i hdir, hl2, get_setPos]

/-- Reading to the end with a nil length, from a stream and from a path. -/
theorem c_file_read_all_witness :
    Tbl.get 1 (sampleWorld [1, 2, 3, 4, 5] 2).streams = some { ino := 1, pos := 2, app := false }
    ∧ Tbl.get (cstr [47, 116]) (sampleWorld [1, 2, 3, 4, 5] 2).dir = some 1
    ∧ c_file_read 6 0 (sampleWorld [1, 2, 3, 4, 5] 2) (regs (.object 1) [.nil]) 1 =
        some (sampleWorld [1, 2, 3, 4, 5] 5, .ret (.string [3, 4, 5]))
    ∧ (c_file_read 6 0 (sampleWorld [1, 2, 3, 4, 5] 2) (regs .cls [.string [47, 116], .nil]) 2).map
        Prod.snd = some (.ret (.string [1, 2, 3, 4, 5])) :=
  ⟨by decide, by decide,
   (c_file_read_all (sampleWorld [1, 2, 3, 4, 5] 2) 1 { ino := 1, pos := 2, app := false }
      [47, 116] 1 6 0 (by decide) (by decide) (by decide) (by decide) (by decide)).2.1,
   congrArg (Option.map Prod.snd)
    (c_file_read_all (sampleWorld [1, 2, 3, 4, 5] 2) 1 { ino := 1, pos := 2, app := false }
      [47, 116] 1 6 0 (by decide) (by decide) (by decide) (by decide) (by decide)).2.2.2.1⟩

/-- C3. The class form does not always close what it opens: with the file `/t`
on disk and no stream open, `File.read("/t", "x")` raises ArgumentError and
returns with the stream it opened still open, while `File.read("/t", 1)`
leaves no stream open. -/
theorem c_file_read_class_form_leaks_stream :
    (diskWorld [104, 105]).streams = []
    ∧ (c_file_read 5 0 (diskWorld [104, 105])
        (regs .cls [.string [47, 116], .string [120]]) 2).map (fun r => (r.1.streams, r.2))
      = some ([(1, { ino := 1, pos := 0, app := false })], .raise none)
    ∧ (c_file_read 5 0 (diskWorld [104, 105])
        (regs .cls [.string [47, 116], .integer 1]) 2).map (fun r => (r.1.streams, r.2))
      = some ([], .ret (.string [104])) := by
  decide

/-- C4. `gets` on an open stream over the bytes `c` at position `p` returns the
bytes from `p` up to and including the first newline, or up to the end when
there is none, and advances the position by exactly the length of what it
returned; it returns nil exactly when `p` is at or past the end.  On the
content `a\nb\nc` four calls return `a\n`, `b\n`, `c` and nil. -/
theorem c_file_gets_line (w : World) (fp : Nat) (f : FILE) (fuel : Nat)
    (hget : Tbl.get fp w.streams = some f)
    (hfuel : (content w f.ino).length - f.pos < fuel) :
    c_file_gets fuel w (regs (.object fp) []) 0 =
        some (setPos w fp f (f.pos + (nextLine ((content w f.ino).drop f.pos)).length),
          if (content w f.ino).length ≤ f.pos then .ret .nil
          else .ret (.string (nextLine ((content w f.ino).drop f.pos))))
    ∧ ((c_file_gets fuel w (regs (.object fp) []) 0).map Prod.snd = some (.ret .nil)
        ↔ (content w f.ino).length ≤ f.pos)
    ∧ c_file_gets_times 6 (regs (.object 1) []) 4 (sampleWorld [97, 10, 98, 10, 99] 0) =
        [some (.ret (.string [97, 10])), some (.ret (.string [98, 10])),
         some (.ret (.string [99])), some (.ret .nil)] := by
  have hl := c_file_gets_loop_spec fuel w fp f [] hget hfuel
  have hnil : nextLine ((content w f.ino).drop f.pos) = [] ↔ (content w f.ino).length ≤ f.pos := by
    rw [nextLine_eq_nil_iff, List.drop_eq_nil_iff]
  have h1 : c_file_gets fuel w (regs (.object fp) []) 0 =
        some (setPos w fp f (f.pos + (nextLine ((content w f.ino).drop f.pos)).length),
          if (content w f.ino).length ≤ f.pos then .ret .nil
          else .ret (.string (nextLine ((content w f.ino).drop f.pos)))) := by
    simp only [c_file_gets, regs, MRBC_INSTANCE_DATA, hl, List.nil_append]
    by_cases hp : (content w f.ino).length ≤ f.pos
    · simp [hp, hnil.mpr hp]
    · have hne : nextLine ((content w f.ino).drop f.pos) ≠ [] := fun h => hp (hnil.mp h)
      simp [hp, hne]
  refine ⟨h1, ?_, by decide⟩
  rw [h1]
  by_cases hp : (content w f.ino).length ≤ f.pos
  · simp [hp]
  · simp [hp]

/-- The first line of a three-byte stream. -/
theorem c_file_gets_line_witness :
    Tbl.get 1 (sampleWorld [97, 10, 98] 0).streams = some { ino := 1, pos := 0, app := false }
    ∧ c_file_gets 4 (sampleWorld [97, 10, 98] 0) (regs (.object 1) []) 0 =
        some (sampleWorld [97, 10, 98] 2, .ret (.string [97, 10])) :=
  ⟨by decide, (c_file_gets_line (sampleWorld [97, 10, 98] 0) 1 { ino := 1, pos := 0, app := false }
    4 (by decide) (by decide)).1⟩

/-- C5. `puts` over string arguments, on an open stream of a host that accepts
every byte, places in the stream exactly the strings in order, each followed
by one newline when it is empty or does not end in a newline, and returns
nil; on a stream positioned at the end of its file these bytes are appended
to the file, which holds them once the stream is closed.  `puts("x")` and
`puts("x\n")` act alike, `puts("")` writes one newline, `puts("x", "y\n", "")` writes `x\ny\n\n`. -/
theorem c_file_puts_newline_rule (w : World) (fp : Nat) (f : FILE) (ss : List (List Nat))
    (hget : Tbl.get fp w.streams = some f) (hcaps : w.wcaps = []) :
    c_file_puts w (regs (.object fp) (ss.map .string)) ss.length =
        (put w fp (ss.map putsLine).flatten, .ret .nil)
    ∧ (writeOff w f = (content (fclose w fp) f.ino).length →
        content (fclose (c_file_puts w (regs (.object fp) (ss.map .string)) ss.length).1 fp)
            f.ino =
          content (fclose w fp) f.ino ++ (ss.map putsLine).flatten)
    ∧ c_file_puts (sampleWorld [] 0) (regs (.object 1) [.string [120]]) 1 =
        c_file_puts (sampleWorld [] 0) (regs (.object 1) [.string [120, 10]]) 1
    ∧ content (fclose (c_file_puts (sampleWorld [] 0)
        (regs (.object 1) [.string []]) 1).1 1) 1 = [10]
    ∧ content (fclose (c_file_puts (sampleWorld [] 0)
        (regs (.object 1) [.string [120], .string [121, 10], .string []]) 3).1 1) 1 =
        [120, 10, 121, 10, 10] := by
  have h1 : c_file_puts w (regs (.object fp) (ss.map .string)) ss.length =
        (put w fp (ss.map putsLine).flatten, .ret .nil) := by
    unfold c_file_puts
    exact c_file_puts_loop_spec _ _ ss 1 w f (regs_args _ ss) hget hcaps
  refine ⟨h1, ?_, by decide, by decide, by decide⟩
  intro hend
  rw [h1]
  exact content_fclose_put w fp f _ hget hend

/-- Three strings through `puts` on an empty file. -/
theorem c_file_puts_newline_rule_witness :
    Tbl.get 1 (sampleWorld [] 0).streams = some { ino := 1, pos := 0, app := false }
    ∧ (sampleWorld [] 0).wcaps = []
    ∧ c_file_puts (sampleWorld [] 0) (regs (.object 1) ([[120], [121, 10], []].map .string)) 3 =
        (put (sampleWorld [] 0) 1 [120, 10, 121, 10, 10], .ret .nil) :=
  ⟨by decide, by decide,
   (c_file_puts_newline_rule (sampleWorld [] 0) 1 { ino := 1, pos := 0, app := false }
     [[120], [121, 10], []] (by decide) (by decide)).1⟩

/-- C6. `write` over string arguments, whatever leading part of each write the
host accepts: the integer returned is the number of bytes placed in the
stream (a total within the range of `int`), these bytes being the accepted
part of each non-empty argument in turn up to the first write that accepts
nothing; on a stream at the end of its file they are what the file has
gained once the stream is closed.  An empty-string argument changes neither
state nor result, and what follows a non-empty argument whose write accepts
nothing does not matter. -/
theorem c_file_write_count (w : World) (fp : Nat) (f : FILE) (ss : List (List Nat))
    (hget : Tbl.get fp w.streams = some f)
    (hbound : ((writePlan w.wcaps ss).1.flatten.length : Int) < 2 ^ 31) :
    c_file_write w (regs (.object fp) (ss.map .string)) ss.length =
        ({ put w fp (writePlan w.wcaps ss).1.flatten with wcaps := (writePlan w.wcaps ss).2 },
          .ret (.integer ((writePlan w.wcaps ss).1.flatten.length : Int)))
    ∧ (writeOff w f = (content (fclose w fp) f.ino).length →
        content (fclose (c_file_write w (regs (.object fp) (ss.map .string)) ss.length).1 fp)
            f.ino =
          content (fclose w fp) f.ino ++ (writePlan w.wcaps ss).1.flatten)
    ∧ (∀ pre post, ss = pre ++ [] :: post →
        c_file_write w (regs (.object fp) ((pre ++ post).map .string)) (pre ++ post).length =
          c_file_write w (regs (.object fp) (ss.map .string)) ss.length)
    ∧ (∀ pre s post post2, ss = pre ++ s :: post → s ≠ [] →
        (accept (writePlan w.wcaps pre).2 s.length).1 = 0 →
        c_file_write w (regs (.object fp) ((pre ++ s :: post2).map .string))
            (pre ++ s :: post2).length =
          c_file_write w (regs (.object fp) (ss.map .string)) ss.length) := by
  have main : ∀ ts : List (List Nat),
      ((writePlan w.wcaps ts).1.flatten.length : Int) < 2 ^ 31 →
      c_file_write w (regs (.object fp) (ts.map .string)) ts.length =
        ({ put w fp (writePlan w.wcaps ts).1.flatten with wcaps := (writePlan w.wcaps ts).2 },
          .ret (.integer ((writePlan w.wcaps ts).1.flatten.length : Int))) := by
    intro ts hb
    unfold c_file_write
    have := c_file_write_loop_spec (regs (.object fp) (ts.map .string)) fp ts 1 w f 0
      (regs_args _ ts) hget (le_refl 0) (by simpa using hb)
    simpa [regs, MRBC_INSTANCE_DATA] using this
  refine ⟨main ss hbound, ?_, ?_, ?_⟩
  · intro hend
    rw [main ss hbound]
    have hcl : ∀ (u : World) (caps : List Nat),
        content (fclose { u with wcaps := caps } fp) f.ino = content (fclose u fp) f.ino := by
      intro u caps
      unfold fclose fflush
      simp only
      split
      · rfl
      · split <;> rfl
    rw [hcl]
    exact content_fclose_put w fp f _ hget hend
  · intro pre post hss
    have hp : writePlan w.wcaps ss = writePlan w.wcaps (pre ++ post) := by
      rw [hss]; exact writePlan_skip_empty _ _ _
    rw [main ss hbound, main (pre ++ post) (by rw [← hp]; exact hbound), hp]
  · intro pre s post post2 hss hs hz
    have hp : writePlan w.wcaps ss = writePlan w.wcaps (pre ++ s :: post2) := by
      rw [hss]; exact writePlan_stop _ _ _ _ _ hs hz
    rw [main ss hbound, main (pre ++ s :: post2) (by rw [← hp]; exact hbound), hp]

/-- A write cut short after two bytes, then one that accepts nothing. -/
theorem c_file_write_count_witness :
    Tbl.get 1 ({ sampleWorld [] 0 with wcaps := [2, 0] } : World).streams =
        some { ino := 1, pos := 0, app := false }
    ∧ (c_file_write { sampleWorld [] 0 with wcaps := [2, 0] }
        (regs (.object 1) ([[97, 98, 99], [], [100, 101], [102]].map .string)) 4).2
        = .ret (.integer 2)
    ∧ content (fclose (c_file_write { sampleWorld [] 0 with wcaps := [2, 0] }
        (regs (.object 1) ([[97, 98, 99], [], [100, 101], [102]].map .string)) 4).1 1) 1
        = [97, 98] :=
  ⟨by decide,
   congrArg Prod.snd (c_file_write_count { sampleWorld [] 0 with wcaps := [2, 0] } 1
     { ino := 1, pos := 0, app := false } [[97, 98, 99], [], [100, 101], [102]]
     (by decide) (by decide)).1,
   (c_file_write_count { sampleWorld [] 0 with wcaps := [2, 0] } 1
     { ino := 1, pos := 0, app := false } [[97, 98, 99], [], [100, 101], [102]]
     (by decide) (by decide)).2.1 (by decide)⟩

/-- C7. `File.delete` goes through its arguments left to right.  When the
arguments `ps` are strings naming distinct existing paths, all are unlinked
and the result is their count.  When such `ps` are followed by an argument
that is no string, ArgumentError is raised with no message; when they are
followed by a string whose unlink fails, ArgumentError is raised with the
text of the error; in both cases exactly `ps` have been unlinked and every
other path is as before. -/
theorem c_file_delete_counts (w : World) (recv : mrbc_value) (ps : List (List Nat))
    (hnodup : (ps.map cstr).Nodup)
    (hex : ∀ p ∈ ps, Tbl.get (cstr p) w.dir ≠ none) :
    c_file_delete w (regs recv (ps.map .string)) ps.length =
        ({ w with dir := unlinkAll ps w.dir }, .ret (.integer ps.length))
    ∧ (∀ bad rest, bad.tt ≠ MRBC_TT_STRING →
        c_file_delete w (regs recv (ps.map .string ++ bad :: rest))
            (ps.length + (rest.length + 1)) =
          ({ w with dir := unlinkAll ps w.dir }, .raise none))
    ∧ (∀ q rest, Tbl.get (cstr q) (unlinkAll ps w.dir) = none →
        c_file_delete w (regs recv (ps.map .string ++ .string q :: rest))
            (ps.length + (rest.length + 1)) =
          ({ w with dir := unlinkAll ps w.dir, errno := ENOENT },
            .raise (some (strerror ENOENT))))
    ∧ (∀ p ∈ ps, Tbl.get (cstr p) (unlinkAll ps w.dir) = none)
    ∧ (∀ q, q ∉ ps.map cstr → Tbl.get q (unlinkAll ps w.dir) = Tbl.get q w.dir) := by
  refine ⟨?_, ?_, ?_, ?_, ?_⟩
  · have := c_file_delete_loop_spec (regs recv (ps.map .string)) ps 0 1 w
      (regs_args recv ps) hnodup hex
    simp only [Nat.add_zero] at this
    rw [c_file_delete, this]
    simp [c_file_delete_loop]
  · intro bad rest hbad
    have := c_file_delete_loop_spec (regs recv (ps.map .string ++ bad :: rest)) ps
      (rest.length + 1) 1 w (regs_args_append recv ps _) hnodup hex
    rw [c_file_delete, this, c_file_delete_loop, regs_args_next]
    simp [hbad]
  · intro q rest hq
    have := c_file_delete_loop_spec (regs recv (ps.map .string ++ .string q :: rest)) ps
      (rest.length + 1) 1 w (regs_args_append recv ps _) hnodup hex
    rw [c_file_delete, this, c_file_delete_loop, regs_args_next]
    simp only [mrbc_value.tt, ne_eq, not_true_eq_false, if_false, RSTRING_PTR]
    rw [remove_of_get_none _ q hq]
    simp
  · intro p hp
    exact get_unlinkAll_of_mem ps _ p hp
  · intro q hq
    exact get_unlinkAll_of_not_mem ps _ q hq

/-- Deleting three files, and deleting with a missing path in the middle. -/
theorem c_file_delete_counts_witness :
    c_file_delete threeFiles (regs .cls ([[97], [98], [99]].map .string)) 3 =
        ({ threeFiles with dir := [] }, .ret (.integer 3))
    ∧ c_file_delete threeFiles
        (regs .cls ([[97]].map .string ++ [.string [120], .string [99]])) 3 =
        ({ threeFiles with dir := [([98], 2), ([99], 3)], errno := ENOENT },
          .raise (some "No such file or directory")) :=
  ⟨(c_file_delete_counts threeFiles .cls [[97], [98], [99]] (by decide) (by decide)).1,
   (c_file_delete_counts threeFiles .cls [[97]] (by decide) (by decide)).2.2.1 [120]
      [.string [99]] (by decide)⟩

/-- C8. Round trip: for every byte sequence `S` and every fresh path under
which the host can create a file, on a host that accepts every byte,
`File.new(path, "w")`, `write(S)`, `close`, then opening the path for reading
and `read` with no length yields exactly `S`, through an instance as well as
through `File.read(path)`; the write returns the length of `S` (within the
range of `int`).  For `hello` under `/tmp/t1` the write returns 5 and both
reads return `hello`. -/
theorem round_trip_bytes (w : World) (path S : List Nat) (fuel : Nat) (junk : Int)
    (hcaps : w.wcaps = [])
    (hfresh : Tbl.get (cstr path) w.dir = none)
    (hcreate : canCreate w (cstr path) = true)
    (hfuel : S.length < fuel) :
    (roundTrip fuel junk w path S).map Prod.snd = some (.ret (.string S), .ret (.string S))
    ∧ ((S.length : Int) < 2 ^ 31 →
        (roundTrip fuel junk w path S).map Prod.fst = some (.ret (.integer S.length)))
    ∧ roundTrip 6 0 tmpWorld (bytes "/tmp/t1") (bytes "hello") =
        some (.ret (.integer 5), .ret (.string (bytes "hello")), .ret (.string (bytes "hello"))) := by
  obtain ⟨i, hfp, hstr, hdir, hcont, hwc⟩ := fopen_w_spec w path hfresh hcreate
  have hnew := c_file_new_two w path [119] _ hfp
  -- the stream just opened
  have hget1 : Tbl.get (freshFp w) (fopen w path [119]).1.streams
      = some { ino := i, pos := 0, app := false } := by
    rw [hstr]; simp [Tbl.get]
  have hwr := c_file_write_single (fopen w path [119]).1 (freshFp w) _ S hget1
    (by rw [hwc]; exact hcaps)
  -- the file once the stream is closed
  have hc1 : content (fclose (fopen w path [119]).1 (freshFp w)) i = [] := by
    have := content_fclose (fopen w path [119]).1 (freshFp w) _ hget1
    simpa [hcont] using this
  have hc2 : content (fclose (put (fopen w path [119]).1 (freshFp w) S) (freshFp w)) i = S := by
    have := content_fclose_put (fopen w path [119]).1 (freshFp w) _ S hget1
      (by simp [writeOff, hc1])
    simpa [hc1] using this
  generalize hw3 : fclose (put (fopen w path [119]).1 (freshFp w) S) (freshFp w) = w3
  have hdir3 : Tbl.get (cstr path) w3.dir = some i := by
    rw [← hw3]; simp only [dir_fclose, dir_put]; exact hdir
  have hc3 : content w3 i = S := by
    rw [← hw3]; exact hc2
  have hr2 := c_file_read_class_all w3 path i fuel junk hdir3 (by rw [hc3]; exact hfuel)
  have hop := fopen_r_of_get w3 path i hdir3
  have hnew2 := c_file_new_one w3 path (freshFp w3) (by rw [hop])
  have hr1 := c_file_read_instance_all (fopen w3 path mode_r).1 (freshFp w3)
    { ino := i, pos := 0, app := false } fuel junk (by rw [hop]; simp [Tbl.get])
    (by rw [hop]; simpa [content] using (by rw [← hc3] at hfuel; simpa [content] using hfuel))
  have hc4 : content (fopen w3 path mode_r).1 i = S := by
    rw [hop]; exact hc3
  have hrt : roundTrip fuel junk w path S =
      some ((c_file_write (fopen w path [119]).1 (regs (.object (freshFp w)) [.string S]) 1).2,
        .ret (.string S), .ret (.string S)) := by
    unfold roundTrip
    rw [hnew]
    simp only [c_file_close, regs, MRBC_INSTANCE_DATA]
    rw [hwr.1, hw3, hnew2]
    simp only
    rw [hr1, hr2]
    simp [hc4, hc3]
  refine ⟨?_, ?_, by decide⟩
  · rw [hrt]; rfl
  · intro hb
    rw [hrt, hwr.2 hb]; rfl

/-- Two bytes written, closed and read back under a fresh path. -/
theorem round_trip_bytes_witness :
    emptyWorld.wcaps = []
    ∧ Tbl.get (cstr [47, 116]) emptyWorld.dir = none
    ∧ canCreate emptyWorld (cstr [47, 116]) = true
    ∧ (roundTrip 6 0 emptyWorld [47, 116] [104, 105]).map Prod.snd =
        some (.ret (.string [104, 105]), .ret (.string [104, 105])) :=
  ⟨rfl, by decide, by decide,
   (round_trip_bytes emptyWorld [47, 116] [104, 105] 6 0 rfl (by decide) (by decide)
     (by decide)).1⟩

/-- C9. `File.new` raises ArgumentError with no message, leaving the host
untouched, exactly when the path is missing or no string, or a mode is present
and no string.  Otherwise it makes one request to `fopen`, with the given path
and the given mode or `r`; on success it returns an instance holding the newly
opened stream, on failure it raises ArgumentError with the text of `errno`. -/
theorem c_file_new_errors (w : World) (v : Nat → mrbc_value) (argc : Nat) :
    (argc = 0 ∨ (v 1).tt ≠ MRBC_TT_STRING ∨ (2 ≤ argc ∧ (v 2).tt ≠ MRBC_TT_STRING) →
      c_file_new w v argc = (w, .raise none))
    ∧ (¬ (argc = 0 ∨ (v 1).tt ≠ MRBC_TT_STRING ∨ (2 ≤ argc ∧ (v 2).tt ≠ MRBC_TT_STRING)) →
        (c_file_new w v argc).1 =
          (fopen w (RSTRING_PTR (v 1)) (if 2 ≤ argc then RSTRING_PTR (v 2) else [114])).1
        ∧ (c_file_new w v argc).1.opens =
          w.opens ++ [(RSTRING_PTR (v 1), if 2 ≤ argc then RSTRING_PTR (v 2) else [114])]
        ∧ (∀ fp,
            (fopen w (RSTRING_PTR (v 1)) (if 2 ≤ argc then RSTRING_PTR (v 2) else [114])).2
              = some fp →
            (c_file_new w v argc).2 = .ret (.object fp)
            ∧ Tbl.get fp w.streams = none
            ∧ (Tbl.get fp (c_file_new w v argc).1.streams).isSome = true)
        ∧ ((fopen w (RSTRING_PTR (v 1)) (if 2 ≤ argc then RSTRING_PTR (v 2) else [114])).2
              = none →
            (c_file_new w v argc).2 = .raise (some (strerror (c_file_new w v argc).1.errno))
            ∧ (c_file_new w v argc).1.streams = w.streams))
    ∧ ((c_file_new w v argc).2 = .raise none ↔
        (argc = 0 ∨ (v 1).tt ≠ MRBC_TT_STRING ∨ (2 ≤ argc ∧ (v 2).tt ≠ MRBC_TT_STRING))) := by
  have hbad : (argc = 0 ∨ (v 1).tt ≠ MRBC_TT_STRING ∨ (2 ≤ argc ∧ (v 2).tt ≠ MRBC_TT_STRING)) →
      c_file_new w v argc = (w, .raise none) := by
    intro h
    unfold c_file_new
    by_cases h1 : argc ≥ 1
    · simp only [h1, if_true]
      cases hv1 : v 1 <;> simp only [hv1, mrbc_value.tt] at h ⊢
      rename_i s
      by_cases h2 : argc ≥ 2
      · simp only [h2, if_true]
        cases hv2 : v 2 <;> simp only [hv2, mrbc_value.tt] at h ⊢
        simp at h
        omega
      · simp at h
        omega
    · simp [h1]
  have hgood : ¬ (argc = 0 ∨ (v 1).tt ≠ MRBC_TT_STRING ∨ (2 ≤ argc ∧ (v 2).tt ≠ MRBC_TT_STRING)) →
      c_file_new w v argc =
        match fopen w (RSTRING_PTR (v 1)) (if 2 ≤ argc then RSTRING_PTR (v 2) else [114]) with
        | (w1, none) => (w1, .raise (some (strerror w1.errno)))
        | (w1, some fp) => (w1, .ret (.object fp)) := by
    intro h
    simp only [not_or, not_and, ne_eq, not_not] at h
    obtain ⟨h0, h1, h2⟩ := h
    unfold c_file_new
    have ha : argc ≥ 1 := by omega
    simp only [ha, if_true]
    cases hv1 : v 1 <;> simp [hv1, mrbc_value.tt] at h1 ⊢
    rename_i s
    by_cases hc : argc ≥ 2
    · have h2 := h2 hc
      cases hv2 : v 2 <;> simp [hv2, mrbc_value.tt] at h2 ⊢
      simp [hc, RSTRING_PTR]
      try rfl
    · simp [hc, RSTRING_PTR, mode_r]
      try rfl
  refine ⟨hbad, ?_, ?_⟩
  · intro h
    rw [hgood h]
    generalize hm : (if 2 ≤ argc then RSTRING_PTR (v 2) else [114]) = m
    have hop := fopen_opens w (RSTRING_PTR (v 1)) m
    have hres := fopen_result w (RSTRING_PTR (v 1)) m
    rcases hfo : fopen w (RSTRING_PTR (v 1)) m with ⟨w1, r⟩
    rw [hfo] at hop hres
    simp only at hop hres
    cases r with
    | none =>
      refine ⟨rfl, hop, ?_, ?_⟩
      · intro fp hfp; simp at hfp
      · intro _
        rcases hres with ⟨_, hs⟩ | ⟨f, hf, _⟩
        · exact ⟨rfl, hs⟩
        · simp at hf
    | some fp =>
      refine ⟨rfl, hop, ?_, ?_⟩
      · intro fp2 hfp
        simp only [Option.some.injEq] at hfp
        subst hfp
        rcases hres with ⟨hn, _⟩ | ⟨f, hf, hs⟩
        · simp at hn
        · simp only [Option.some.injEq] at hf
          subst hf
          refine ⟨rfl, ?_, ?_⟩
          · exact Tbl.get_freshKey w.streams
          · simp [hs, Tbl.get]
      · intro hn; simp at hn
  · constructor
    · intro hr
      by_contra hnb
      rw [hgood hnb] at hr
      generalize fopen w (RSTRING_PTR (v 1)) (if 2 ≤ argc then RSTRING_PTR (v 2) else [114])
        = r at hr
      obtain ⟨w1, r⟩ := r
      cases r <;> simp at hr
    · intro h
      rw [hbad h]

/-- C10. The size of the staging buffer does not matter: with any size `B ≥ 1`
in place of 32, `read` returns the same result and host state on every call
(any receiver, any length argument), and its loop equals one single `fread`
of `readCount` bytes: `min length remaining`, or all remaining bytes when
reading all. -/
theorem c_file_read_staging_size_independent (B : Nat) (hB : 1 ≤ B) (fuel : Nat) (w : World)
    (hfuel : ∀ i, (content w i).length < fuel) :
    (∀ (v : Nat → mrbc_value) (argc : Nat) (junk : Int),
      c_file_read_sized B fuel junk w v argc = c_file_read fuel junk w v argc)
    ∧ (∀ (fp : Nat) (f : FILE) (flag_all : Bool) (length : Int) (acc : List Nat),
        Tbl.get fp w.streams = some f → length < 2 ^ 31 →
        c_file_read_loop B fuel w fp flag_all length acc =
          some ((fread w fp (readCount flag_all length ((content w f.ino).length - f.pos))).1,
            acc ++ (fread w fp
              (readCount flag_all length ((content w f.ino).length - f.pos))).2)) := by
  constructor
  · intro v argc junk
    have key : ∀ (w1 : World) (fp : Nat) (flag_all : Bool) (length : Int),
        (∀ i, content w1 i = content w i) → length < 2 ^ 31 →
        c_file_read_loop B fuel w1 fp flag_all length [] =
          c_file_read_loop 32 fuel w1 fp flag_all length [] := by
      intro w1 fp flag_all length hc hlen
      exact c_file_read_loop_any_size B hB fuel w1 fp flag_all length []
        (fun i => by rw [hc]; exact hfuel i) hlen
    have hj := (wrap32_range junk).2
    simp only [c_file_read, c_file_read_sized]
    split
    · rfl
    · rename_i w1 fp pos_length flag_all hstart
      have hc : ∀ i, content w1 i = content w i := by
        intro i
        split at hstart
        · split at hstart
          · simp at hstart
          · simp only [Option.some.injEq, Prod.mk.injEq] at hstart
            rw [← hstart.1]
            exact content_fopen_r w _ i
        · simp only [Option.some.injEq, Prod.mk.injEq] at hstart
          rw [← hstart.1]
      split
      · rfl
      · rename_i flag_all2 length hchk
        have hlen : length < 2 ^ 31 := by
          split at hchk
          · split at hchk
            · simp only [Option.some.injEq, Prod.mk.injEq] at hchk
              rw [← hchk.2]
              exact (wrap32_range _).2
            · simp only [Option.some.injEq, Prod.mk.injEq] at hchk
              rw [← hchk.2]
              exact hj
            · simp at hchk
          · simp only [Option.some.injEq, Prod.mk.injEq] at hchk
            rw [← hchk.2]
            exact hj
        rw [key w1 fp flag_all2 length hc hlen]
  · intro fp f flag_all length acc hget hlen
    have hf : (content w f.ino).length - f.pos < fuel := by
      have := hfuel f.ino
      omega
    rw [c_file_read_loop_spec B hB fuel w fp f flag_all length acc hget hf (fun _ => hlen),
      fread_of_get w fp f _ hget]
    have hr : readCount flag_all length ((content w f.ino).length - f.pos)
        ≤ (content w f.ino).length - f.pos := by
      cases flag_all <;> simp [readCount]
    simp [Nat.min_eq_left hr]

/-- A staging buffer of one byte against the one of 32. -/
theorem c_file_read_staging_size_independent_witness :
    c_file_read_sized 1 6 0 (sampleWorld [1, 2, 3, 4, 5] 1) (regs (.object 1) [.integer 3]) 1 =
      c_file_read 6 0 (sampleWorld [1, 2, 3, 4, 5] 1) (regs (.object 1) [.integer 3]) 1 :=
  (c_file_read_staging_size_independent 1 (by decide) 6 (sampleWorld [1, 2, 3, 4, 5] 1)
    (fun i => by
      by_cases h : i = 1
      · subst h; decide
      · have h2 : ¬ (1 = i) := fun e => h e.symm
        simp [content, sampleWorld, Tbl.get, h2])).1
    (regs (.object 1) [.integer 3]) 1 0

end CFile
